import Mathlib

/-!
A verification development for the aiboard session-orchestration worker.

This file gives a shallow embedding, in Lean, of the streaming-translation
and session-orchestration core of the repository:

* the Planner agent's task-list state and its two mutators
  (`updateTaskStatus`, `generatePlanUpdate`) from
  `demo/worker/agents/PlannerAgent.ts`;
* the partial-stream emission loop of `streamActions` from
  `demo/worker/do/AgentService.ts`;
* the brace-scanning action decoder of `ExecutorAgent.streamActions` from
  `demo/worker/agents/ExecutorAgent.ts`;
* the `closeAndParseJson` helper (source text recorded in
  `contextaboutdemoworker.md`), together with an executable model of the
  JSON grammar standing in for the platform JSON.parse;
* the per-turn orchestration loop of `AgentDurableObject.webSocketMessage`;
* the generation-side close handler of `handleProxyWebSocket`.

Effectful code is embedded by explicit state passing; external generation
calls become oracle parameters; wall-clock timestamps are not modelled.
-/

namespace Aiboard

/-- Status values of a `TodoItem` (PlannerAgent.ts, the
`'todo' | 'in-progress' | 'done'` union). -/
inductive TaskStatus where
  | todo
  | inProgress
  | done
deriving DecidableEq, Repr

/-- A task, as stored in the Planner agent state (PlannerAgent.ts
`interface TodoItem`). -/
structure TodoItem where
  id : String
  text : String
  status : TaskStatus
deriving DecidableEq, Repr

/-- `PlannerAgent.updateTaskStatus`: map over the stored list, replacing the
status of every item whose id matches. -/
def updateTaskStatus (todoList : List TodoItem) (id : String)
    (status : TaskStatus) : List TodoItem :=
  todoList.map fun item =>
    if item.id = id then { item with status := status } else item

/-- `PlannerAgent.generatePlan`, final state update (lines 125-139): the
model reply is cleaned of code fences, the first-brace-to-last-brace
substring is parsed as JSON, and `if (data.todoList)` the stored list is
replaced wholesale by the reply's list; when no JSON object or no
`todoList` field is found the state is unchanged.  That text-processing
chain is abstracted here into its outcome: `response` is the optional
parsed `todoList` field. -/
def generatePlanUpdate (todoList : List TodoItem)
    (response : Option (List TodoItem)) : List TodoItem :=
  match response with
  | some newList => newList
  | none => todoList

/-! ### The streaming emission loop of `AgentService.streamActions`

`streamActions` (AgentService.ts lines 151-210) keeps a growing text
buffer, re-decodes it after every chunk with `closeAndParseJson`, and
drives a cursor over the decoded `actions` array, yielding preview
(`complete:false`) and final (`complete:true`) emissions.  The loop is
embedded over the sequence of successful decode results (the `continue`
guards for a failed decode, a missing `actions` array and an empty array
are part of the step).  The `time` field (wall clock) is not modelled.
Each emission additionally records which array slot (`cursor - 1` at the
moment of the read) it came from, so that emissions of the same logical
action can be identified. -/

/-- One yielded element of the emission loop: the array slot read
(`cursor - 1` at the time of the read), the value found there and the
`complete` flag. -/
structure Emission (α : Type) where
  idx : Nat
  action : α
  complete : Bool
deriving DecidableEq, Repr

/-- The mutable locals of the loop body: `cursor`,
`maybeIncompleteAction`, and the list of emissions yielded so far. -/
structure LoopState (α : Type) where
  cursor : Nat
  maybeIncompleteAction : Option α
  out : List (Emission α)
deriving DecidableEq, Repr

/-- JS `actions[cursor - 1]`: at cursor 0 this reads index -1, which is
`undefined` (so the `if (action)` guard fails). -/
def getPrev (actions : List α) (cursor : Nat) : Option α :=
  if cursor = 0 then none else actions.get? (cursor - 1)

/-- The body of `for await (const text of textStream)` after a successful
decode, AgentService.ts lines 161-200.  The three `continue` guards
collapse to the `isEmpty` test (a failed decode or missing array simply
does not appear in the decode sequence). -/
def emitStep (st : LoopState α) (actions : List α) : LoopState α :=
  if actions.isEmpty then st
  else
    let st1 :=
      if actions.length > st.cursor then
        match getPrev actions st.cursor with
        | some a =>
          { cursor := st.cursor + 1
            maybeIncompleteAction := none
            out := st.out ++ [⟨st.cursor - 1, a, true⟩] }
        | none => { st with cursor := st.cursor + 1 }
      else st
    match getPrev actions st1.cursor with
    | some a =>
      { st1 with
        maybeIncompleteAction := some a
        out := st1.out ++ [⟨st1.cursor - 1, a, false⟩] }
    | none => st1

/-- After the stream ends: if an incomplete action is pending, emit it
once more with `complete:true` (lines 204-210). -/
def emitFinish (st : LoopState α) : List (Emission α) :=
  match st.maybeIncompleteAction with
  | some a => st.out ++ [⟨st.cursor - 1, a, true⟩]
  | none => st.out

/-- The whole emission loop, run over the sequence `ds` of successful
decode results observed while the buffer grows. -/
def emitRun (ds : List (List α)) : List (Emission α) :=
  emitFinish (ds.foldl emitStep ⟨0, none, []⟩)

/-- The lengths of the successive decode results. -/
def decodeLens (ds : List (List α)) : List Nat := ds.map List.length

/-- A well-behaved decode sequence for the final array `full`: the
successful decodes are nonempty, their lengths start at 1 and grow by at
most one per decode (one added character can complete at most one further
array element), the settled prefix of each decode (all entries but the
last) agrees with the final array, and the last decode is the complete
final array.  Character-by-character delivery of a valid array yields
such a sequence only while `closeAndParseJson` keeps tracking the array:
its quote tracker toggles on escaped quotes, and a theorem below exhibits
a valid array whose actual decode sequence falls outside this predicate
(no successful decode equals the full array) and whose run loses an
action. -/
def StreamOK (full : List α) (ds : List (List α)) : Prop :=
  full ≠ [] ∧
  ds ≠ [] ∧
  ds.getLast? = some full ∧
  List.Chain' (fun a b => a ≤ b ∧ b ≤ a + 1) (0 :: decodeLens ds) ∧
  (∀ d ∈ ds, d ≠ []) ∧
  (∀ d ∈ ds, d.take (d.length - 1) = full.take (d.length - 1))

/-- The finalized emissions of a run, with the slot each came from. -/
def finals (out : List (Emission α)) : List (Nat × α) :=
  (out.filter (fun e => e.complete)).map (fun e => (e.idx, e.action))

/-- How many `complete:false` previews of array slot `j` a run contains. -/
def previewCount (out : List (Emission α)) (j : Nat) : Nat :=
  (out.filter (fun e => !e.complete ∧ e.idx = j)).length

/-! ### The brace-scanning decoder of `ExecutorAgent.streamActions`

`ExecutorAgent.streamActions` (ExecutorAgent.ts lines 108-167) scans the
accumulated buffer for `\x7b`, finds the matching `\x7d` by balance
counting, tries `JSON.parse` on the enclosed slice and, on failure, skips
the offending opening brace.  `JSON.parse` is a parameter `jsparse` here:
the scan is correct for any parse function. -/

/-- One balance update of the inner scan (lines 121-122): +1 on `\x7b`,
-1 on `\x7d`. -/
def braceStep (balance : Int) (c : Char) : Int :=
  if c = '\x7b' then balance + 1
  else if c = '\x7d' then balance - 1
  else balance

/-- The inner balance scan (lines 116-128), relative to the remaining
characters: the returned offset is the first position at which the
running balance, updated by `braceStep` and checked after every
character, returns to zero. -/
def findEndAux : List Char → Int → Option Nat
  | [], _ => none
  | c :: rest, balance =>
    if braceStep balance c = 0 then some 0
    else (findEndAux rest (braceStep balance c)).map (· + 1)

/-- `endIndex` search starting at `startIndex` with balance 0. -/
def findEnd (buf : List Char) (startIndex : Nat) : Option Nat :=
  (findEndAux (buf.drop startIndex) 0).map (· + startIndex)

/-- The three possible outcomes of one pass of the scan loop body. -/
inductive ScanStep (α : Type) where
  | emit (a : α) (rest : List Char)
  | skip (rest : List Char)
  | wait
deriving Repr

/-- One pass of the `while (startIndex !== -1)` body: locate the first
opening brace, find its balance-matching close; on a parse success the
buffer advances past the closing brace (`buffer.slice(endIndex + 1)`), on
a parse failure it skips the opening brace
(`buffer.slice(startIndex + 1)`), and with no brace or no matching close
the loop breaks to wait for more input. -/
def scanStep (jsparse : List Char → Option α) (buf : List Char) :
    ScanStep α :=
  match buf.findIdx? (fun c => c = '\x7b') with
  | none => .wait
  | some startIndex =>
    match findEnd buf startIndex with
    | none => .wait
    | some endIndex =>
      let potentialJson := (buf.drop startIndex).take (endIndex + 1 - startIndex)
      match jsparse potentialJson with
      | some a => .emit a (buf.drop (endIndex + 1))
      | none => .skip (buf.drop (startIndex + 1))

/-- The scan loop, fuel-recursive; each productive pass strictly shrinks
the buffer, so `buf.length + 1` units of fuel always suffice (proved
below).  Returns the parsed actions in order and the final waiting
buffer. -/
def processBufferAux (jsparse : List Char → Option α) :
    Nat → List Char → List α × List Char
  | 0, buf => ([], buf)
  | fuel + 1, buf =>
    match scanStep jsparse buf with
    | .emit a rest =>
      let r := processBufferAux jsparse fuel rest
      (a :: r.1, r.2)
    | .skip rest => processBufferAux jsparse fuel rest
    | .wait => ([], buf)

/-- The scan loop over a buffer. -/
def processBuffer (jsparse : List Char → Option α) (buf : List Char) :
    List α × List Char :=
  processBufferAux jsparse (buf.length + 1) buf

/-! ### The generation-side close handler of `handleProxyWebSocket`

AgentService.ts lines 506-511: the `close` listener on the Vertex
connection logs the close and then calls `clientWebSocket.close()` when
the client socket is still open. -/

/-- WebSocket `readyState` values. -/
inductive WsState where
  | connecting
  | wsOpen
  | closing
  | wsClosed
deriving DecidableEq, Repr

/-- The externally observable effects the close handler can perform. -/
inductive BridgeEffect where
  | logClose
  | closeClient
deriving DecidableEq, Repr

/-- The vertex-side `close` listener (AgentService.ts lines 506-511):
log, then `if (clientWebSocket.readyState === WebSocket.OPEN)
clientWebSocket.close()`.  Total: the handler cannot throw. -/
def onVertexClose (clientState : WsState) : List BridgeEffect :=
  [BridgeEffect.logClose] ++
    (if clientState = WsState.wsOpen then [BridgeEffect.closeClient] else [])

/-! ### A JSON model and `closeAndParseJson`

`closeAndParseJson` (source text in contextaboutdemoworker.md lines
542-584) tracks still-open `\x7b`, `\x5b` and `\x22` tokens over the
buffer, appends the matching closers, and hands the result to the
platform `JSON.parse`.  `JSON.parse` is modelled by an executable
recursive-descent reading of the JSON grammar (numbers restricted to
integers, `\u` escapes unsupported; the inputs this development evaluates
stay inside that subset, on which the model agrees with `JSON.parse`). -/

/-- JSON values. -/
inductive Json where
  | jnull
  | jbool (b : Bool)
  | jnum (n : Int)
  | jstr (s : String)
  | jarr (elts : List Json)
  | jobj (fields : List (String × Json))

/-- JSON whitespace. -/
def isWs (c : Char) : Bool :=
  c = ' ' ∨ c = '\n' ∨ c = '\t' ∨ c = '\r'

/-- Skip leading whitespace. -/
def skipWs (l : List Char) : List Char := l.dropWhile isWs

/-- Decode one character escape (the part of the JSON escape table this
model supports). -/
def escChar (e : Char) : Option Char :=
  if e = '\x22' then some '\x22'
  else if e = '\\' then some '\\'
  else if e = '/' then some '/'
  else if e = 'n' then some '\n'
  else if e = 't' then some '\t'
  else if e = 'r' then some '\r'
  else if e = 'b' then some '\x08'
  else if e = 'f' then some '\x0c'
  else none

/-- Parse the body of a string literal (after the opening quote), up to
and including the closing quote; returns the decoded characters and the
remaining input. -/
def parseStrChars : List Char → Option (List Char × List Char)
  | [] => none
  | c :: rest =>
    if c = '\x22' then some ([], rest)
    else if c = '\\' then
      match rest with
      | [] => none
      | e :: rest2 =>
        match escChar e with
        | none => none
        | some d =>
          match parseStrChars rest2 with
          | none => none
          | some (s, rem) => some (d :: s, rem)
    else
      match parseStrChars rest with
      | none => none
      | some (s, rem) => some (c :: s, rem)

/-- The value of a nonempty digit string. -/
def digitsToNat (l : List Char) : Nat :=
  l.foldl (fun acc c => acc * 10 + (c.toNat - 48)) 0

mutual

/-- Parse one JSON value (fuel-recursive; `jsonParse` supplies ample
fuel). -/
def parseVal : Nat → List Char → Option (Json × List Char)
  | 0, _ => none
  | fuel + 1, input =>
    match skipWs input with
    | [] => none
    | c :: rest =>
      if c = '\x22' then
        match parseStrChars rest with
        | none => none
        | some (s, rem) => some (Json.jstr (String.mk s), rem)
      else if c = '\x7b' then parseObjItems fuel rest
      else if c = '\x5b' then parseArrItems fuel rest
      else if c = 't' then
        if rest.take 3 = ['r', 'u', 'e'] then
          some (Json.jbool true, rest.drop 3)
        else none
      else if c = 'f' then
        if rest.take 4 = ['a', 'l', 's', 'e'] then
          some (Json.jbool false, rest.drop 4)
        else none
      else if c = 'n' then
        if rest.take 3 = ['u', 'l', 'l'] then
          some (Json.jnull, rest.drop 3)
        else none
      else if c = '-' then
        match rest.takeWhile Char.isDigit with
        | [] => none
        | ds => some (Json.jnum (-(digitsToNat ds : Int)), rest.dropWhile Char.isDigit)
      else if c.isDigit then
        some (Json.jnum (digitsToNat ((c :: rest).takeWhile Char.isDigit)),
          (c :: rest).dropWhile Char.isDigit)
      else none

/-- Parse array elements after the opening bracket. -/
def parseArrItems : Nat → List Char → Option (Json × List Char)
  | 0, _ => none
  | fuel + 1, input =>
    match skipWs input with
    | [] => none
    | c :: rest =>
      if c = '\x5d' then some (Json.jarr [], rest)
      else
        match parseVal fuel (c :: rest) with
        | none => none
        | some (v, rem) =>
          match parseArrTail fuel rem with
          | none => none
          | some (vs, rem2) => some (Json.jarr (v :: vs), rem2)

/-- Parse `, value` repetitions up to the closing bracket. -/
def parseArrTail : Nat → List Char → Option (List Json × List Char)
  | 0, _ => none
  | fuel + 1, input =>
    match skipWs input with
    | [] => none
    | c :: rest =>
      if c = '\x5d' then some ([], rest)
      else if c = ',' then
        match parseVal fuel rest with
        | none => none
        | some (v, rem) =>
          match parseArrTail fuel rem with
          | none => none
          | some (vs, rem2) => some (v :: vs, rem2)
      else none

/-- Parse object members after the opening brace. -/
def parseObjItems : Nat → List Char → Option (Json × List Char)
  | 0, _ => none
  | fuel + 1, input =>
    match skipWs input with
    | [] => none
    | c :: rest =>
      if c = '\x7d' then some (Json.jobj [], rest)
      else
        match parseMember fuel (c :: rest) with
        | none => none
        | some (kv, rem) =>
          match parseObjTail fuel rem with
          | none => none
          | some (kvs, rem2) => some (Json.jobj (kv :: kvs), rem2)

/-- Parse `, member` repetitions up to the closing brace. -/
def parseObjTail : Nat → List Char → Option (List (String × Json) × List Char)
  | 0, _ => none
  | fuel + 1, input =>
    match skipWs input with
    | [] => none
    | c :: rest =>
      if c = '\x7d' then some ([], rest)
      else if c = ',' then
        match parseMember fuel rest with
        | none => none
        | some (kv, rem) =>
          match parseObjTail fuel rem with
          | none => none
          | some (kvs, rem2) => some (kv :: kvs, rem2)
      else none

/-- Parse one `"key": value` member. -/
def parseMember : Nat → List Char → Option ((String × Json) × List Char)
  | 0, _ => none
  | fuel + 1, input =>
    match skipWs input with
    | [] => none
    | c :: rest =>
      if c = '\x22' then
        match parseStrChars rest with
        | none => none
        | some (k, rem) =>
          match skipWs rem with
          | [] => none
          | c2 :: rem2 =>
            if c2 = ':' then
              match parseVal fuel rem2 with
              | none => none
              | some (v, rem3) => some ((String.mk k, v), rem3)
            else none
      else none

end

/-- The model of the platform `JSON.parse`: parse one value and require
only whitespace to remain (a trailing non-whitespace character is a parse
error). -/
def jsonParse (s : String) : Option Json :=
  match parseVal (2 * s.length + 2) s.toList with
  | some (v, rem) => if skipWs rem = [] then some v else none
  | none => none

/-- JS property read `value.field` on a parse result: only objects carry
fields. -/
def Json.getField : Json → String → Option Json
  | .jobj fields, key => (fields.find? (fun p => p.1 = key)).map Prod.snd
  | _, _ => none

/-- One step of the bracket/quote tracker of `closeAndParseJson`
(contextaboutdemoworker.md lines 546-569).  The JS array stack is
modelled head-first: `push` conses, `.at(-1)` is `head?`, `pop` is
`tail`.  The source tests the character with four independent `if`
statements; as written it toggles the quote state on every `\x22`
character - there is no backslash-escape check, although the adjacent
source comment says escaped quotes are skipped. -/
def updateStack (stack : List Char) (c : Char) : List Char :=
  let s1 :=
    if c = '\x22' then
      if stack.head? = some '\x22' then stack.tail else '\x22' :: stack
    else stack
  let s2 := if c = '\x7b' ∨ c = '\x5b' then c :: s1 else s1
  let s3 := if c = '\x7d' ∧ s2.head? = some '\x7b' then s2.tail else s2
  if c = '\x5d' ∧ s3.head? = some '\x5b' then s3.tail else s3

/-- The stack of still-open `\x7b`, `\x5b`, `\x22` tokens after scanning
the whole buffer (lines 546-569), top first. -/
def stackOfOpenings (s : List Char) : List Char := s.foldl updateStack []

/-- The closers appended for the still-open tokens, innermost first
(lines 571-576). -/
def closersFor (stack : List Char) : List Char :=
  stack.filterMap fun c =>
    if c = '\x7b' then some '\x7d'
    else if c = '\x5b' then some '\x5d'
    else if c = '\x22' then some '\x22'
    else none

/-- `closeAndParseJson` (lines 542-584): append the closers for all
still-open tokens, then try `JSON.parse`, returning null (here `none`) on
a parse error. -/
def closeAndParseJson (s : String) : Option Json :=
  jsonParse (s ++ String.mk (closersFor (stackOfOpenings s.toList)))

/-- The decode attempt of the emission loop for one buffer state
(AgentService.ts lines 161-166): `closeAndParseJson` on the buffer, then
the `actions` property, which must be an array; each failed guard is a
`continue` in the source, `none` here. -/
def decodeActions (buf : String) : Option (List Json) :=
  match closeAndParseJson buf with
  | none => none
  | some v =>
    match v.getField "actions" with
    | some (Json.jarr l) => some l
    | _ => none

/-- The successive buffer contents when `s` arrives character by
character: the nonempty prefixes of `s`, in order. -/
def charBuffers (s : String) : List String :=
  (List.range s.length).map (fun n => String.mk (s.toList.take (n + 1)))

/-- The sequence of successful decode results the emission loop observes
when `s` arrives character by character (`buffer += text` followed by the
decode attempt, per chunk). -/
def streamDecodes (s : String) : List (List Json) :=
  (charBuffers s).filterMap decodeActions

/-! ### The session-controller turn of `AgentDurableObject.webSocketMessage`

`webSocketMessage` (AgentDurableObject.ts) runs one user turn: after the
Planner call it loops over `status = 'todo'` items, dispatching each to
the Executor, forwarding every parsed action to the client, marking the
task done, optionally calling the Verifier, and - once no todo item
remains - running one final whole-session verification pass.  The whole
handler body sits in a single `try`: any exception jumps to the `catch`,
which sends one `\x7b type:'error' \x7d` frame and returns.

The embedding passes the state explicitly.  The external agents are
oracle parameters: `exec k` is what the k-th Executor stream delivers
line-by-line before ending or throwing, `suggest k` the k-th per-task
Verifier reply, `finalSuggest` the final-pass reply; the `Fails` fields
say whether the corresponding awaited call throws. -/

/-- A canvas shape as far as the controller state updates inspect it. -/
structure Shape where
  id : String
  x : Int
  y : Int
deriving DecidableEq, Repr

/-- The field set of an `update`/`move` payload: spread semantics, absent
fields leave the shape's value. -/
structure ShapePatch where
  id : String
  x? : Option Int
  y? : Option Int
deriving DecidableEq, Repr

/-- The actions the controller distinguishes by `_type`
(AgentDurableObject.ts lines 152-172): `create`, `update`, `move`,
`delete`, plus informational `message` actions. -/
inductive AgentAction where
  | create (shape : Shape)
  | update (patch : ShapePatch)
  | move (id : String) (x? : Option Int) (y? : Option Int)
  | erase (id : String)
  | message (text : String)
deriving DecidableEq, Repr

/-- JS `findIndex` + in-place mutation of that element: rewrite the first
list entry satisfying the test, leave the rest. -/
def updateFirst (p : Shape → Bool) (f : Shape → Shape) :
    List Shape → List Shape
  | [] => []
  | s :: rest => if p s then f s :: rest else s :: updateFirst p f rest

/-- JS `findIndex` + `splice(index, 1)`: remove the first list entry
satisfying the test. -/
def removeFirst (p : Shape → Bool) : List Shape → List Shape
  | [] => []
  | s :: rest => if p s then rest else s :: removeFirst p rest

/-- The controller's local shape-snapshot update for one forwarded
executor action (AgentDurableObject.ts lines 152-172): `create` pushes,
`update` spread-merges into the matching shape, `move` patches x/y of the
matching shape, `delete` splices it out; other kinds leave the snapshot. -/
def applyActionToShapes (action : AgentAction) (currentShapes : List Shape) :
    List Shape :=
  match action with
  | .create shape => currentShapes ++ [shape]
  | .update patch =>
    updateFirst (fun s => s.id = patch.id)
      (fun s => { id := patch.id, x := patch.x?.getD s.x, y := patch.y?.getD s.y })
      currentShapes
  | .move id x? y? =>
    updateFirst (fun s => s.id = id)
      (fun s => { s with x := x?.getD s.x, y := y?.getD s.y })
      currentShapes
  | .erase id => removeFirst (fun s => s.id = id) currentShapes
  | .message _ => currentShapes

/-- The snapshot update for a per-task Verifier suggestion
(AgentDurableObject.ts lines 233-240): only `create` and `update` are
applied there; `move` and `delete` suggestions are forwarded but not
applied locally. -/
def applySuggestionToShapes (action : AgentAction)
    (currentShapes : List Shape) : List Shape :=
  match action with
  | .create shape => currentShapes ++ [shape]
  | .update patch =>
    updateFirst (fun s => s.id = patch.id)
      (fun s => { id := patch.id, x := patch.x?.getD s.x, y := patch.y?.getD s.y })
      currentShapes
  | _ => currentShapes

/-- One outbound client frame the turn can send: an action frame (the
code always stamps `complete:true, time:0` on forwarded actions) or the
`catch` block's error frame (whose message text is the thrown error's,
not modelled). -/
inductive ClientMsg where
  | action (a : AgentAction)
  | error
deriving DecidableEq, Repr

/-- What one Executor call delivers: the actions parsed from the stream
before it ends, and whether reading the stream then throws. -/
structure ExecResult where
  delivered : List AgentAction
  failed : Bool
deriving DecidableEq, Repr

/-- The oracle for the external agent calls of one turn. -/
structure TurnOracle where
  exec : Nat → ExecResult
  suggest : Nat → List AgentAction
  suggestFails : Nat → Bool
  finalSuggest : List AgentAction
  finalFails : Bool

/-- The per-iteration record kept by the embedding: the dispatched task,
what the Executor delivered, whether it failed, the frames sent during
the iteration, and the todo list after it. -/
structure IterRecord where
  task : TodoItem
  delivered : List AgentAction
  failed : Bool
  msgs : List ClientMsg
  todoAfter : List TodoItem
deriving DecidableEq, Repr

/-- The state of one running turn. -/
structure RunState where
  todoList : List TodoItem
  shapes : List Shape
  sessionLog : List AgentAction
  sent : List ClientMsg
  finalVerifyCalls : List (List AgentAction × List Shape)
  trace : List IterRecord
  callIdx : Nat
  aborted : Bool
deriving DecidableEq, Repr

/-- The `Planning task:` notice (AgentDurableObject.ts line 118; note the
trailing space of the template literal). -/
def planningNotice (t : TodoItem) : ClientMsg :=
  .action (.message ("Planning task: " ++ t.text ++ " "))

/-- The zero-action notice (line 206). -/
def noActionsNotice (t : TodoItem) : ClientMsg :=
  .action (.message ("Task completed(no actions generated): " ++ t.text ++ " "))

/-- One iteration of the `while (todoItem)` loop (lines 111-262) for the
found todo item `t`.  The executor stream is read to its end: every
delivered action is applied to the snapshot, logged and forwarded; if
reading then throws, control jumps to the handler's `catch`, which sends
one error frame and ends the turn with the task status untouched.
Otherwise the task is marked done (in both the actions and the
zero-action branch), the zero-action branch adds its notice, and with the
suggester enabled the Verifier is consulted (a throw there likewise ends
the turn via the `catch`). -/
def runIteration (oracle : TurnOracle) (suggesterEnabled : Bool)
    (st : RunState) (t : TodoItem) : RunState :=
  let r := oracle.exec st.callIdx
  let shapes1 := r.delivered.foldl (fun sh a => applyActionToShapes a sh) st.shapes
  let actMsgs := r.delivered.map ClientMsg.action
  let log1 := st.sessionLog ++ r.delivered
  if r.failed then
    let msgs := [planningNotice t] ++ actMsgs ++ [ClientMsg.error]
    { st with
      shapes := shapes1
      sessionLog := log1
      sent := st.sent ++ msgs
      trace := st.trace ++ [⟨t, r.delivered, true, msgs, st.todoList⟩]
      aborted := true }
  else
    let todo1 := updateTaskStatus st.todoList t.id .done
    let doneMsgs := if r.delivered.isEmpty then [noActionsNotice t] else []
    if suggesterEnabled then
      if oracle.suggestFails st.callIdx then
        let msgs := [planningNotice t] ++ actMsgs ++ doneMsgs ++ [ClientMsg.error]
        { st with
          todoList := todo1
          shapes := shapes1
          sessionLog := log1
          sent := st.sent ++ msgs
          trace := st.trace ++ [⟨t, r.delivered, false, msgs, todo1⟩]
          aborted := true }
      else
        let sugg := oracle.suggest st.callIdx
        let suggMsgs :=
          if sugg.isEmpty then []
          else
            [ClientMsg.action (.message
              ("Suggester: Found " ++ toString sugg.length ++ " improvements.Applying..."))]
              ++ sugg.map ClientMsg.action
        let shapes2 := sugg.foldl (fun sh a => applySuggestionToShapes a sh) shapes1
        let msgs := [planningNotice t] ++ actMsgs ++ doneMsgs ++ suggMsgs
        { todoList := todo1
          shapes := shapes2
          sessionLog := log1
          sent := st.sent ++ msgs
          finalVerifyCalls := st.finalVerifyCalls
          trace := st.trace ++ [⟨t, r.delivered, false, msgs, todo1⟩]
          callIdx := st.callIdx + 1
          aborted := false }
    else
      let msgs := [planningNotice t] ++ actMsgs ++ doneMsgs
      { todoList := todo1
        shapes := shapes1
        sessionLog := log1
        sent := st.sent ++ msgs
        finalVerifyCalls := st.finalVerifyCalls
        trace := st.trace ++ [⟨t, r.delivered, false, msgs, todo1⟩]
        callIdx := st.callIdx + 1
        aborted := false }

/-- The number of `status = 'todo'` items. -/
def countTodo (todoList : List TodoItem) : Nat :=
  (todoList.filter (fun item => item.status = TaskStatus.todo)).length

/-- The `while (todoItem)` loop: refetch the planner state, find the
first todo item, run one iteration; fuel-recursive (each iteration
strictly decreases `countTodo`, so `countTodo` units of fuel always
suffice - proved below). -/
def runLoop (oracle : TurnOracle) (suggesterEnabled : Bool) :
    Nat → RunState → RunState
  | 0, st => st
  | fuel + 1, st =>
    if st.aborted then st
    else
      match st.todoList.find? (fun item => item.status = TaskStatus.todo) with
      | none => st
      | some t => runLoop oracle suggesterEnabled fuel
          (runIteration oracle suggesterEnabled st t)

/-- The final-verification block (lines 264-315): when no todo item
remains, announce completion, invoke the Verifier once with the whole
session's action log and the final snapshot, and forward its reply (final
fixes are sent but not applied to the snapshot); a throw in the final
pass sends the error frame. -/
def finalBlock (oracle : TurnOracle) (st : RunState) : RunState :=
  if st.aborted then st
  else if (st.todoList.find? (fun item => item.status = TaskStatus.todo)).isSome then st
  else
    let st1 := { st with
      sent := st.sent ++
        [ClientMsg.action (.message "All tasks completed! Running final verification...")]
      finalVerifyCalls := st.finalVerifyCalls ++ [(st.sessionLog, st.shapes)] }
    if oracle.finalFails then
      { st1 with sent := st1.sent ++ [ClientMsg.error], aborted := true }
    else if oracle.finalSuggest.isEmpty then
      { st1 with sent := st1.sent ++
        [ClientMsg.action (.message "Final Verification: No issues found.Great job!")] }
    else
      { st1 with sent := st1.sent ++
        [ClientMsg.action (.message
          ("Final Verification: Found " ++ toString oracle.finalSuggest.length
            ++ " issues.Applying fixes..."))]
        ++ oracle.finalSuggest.map ClientMsg.action }

/-- One whole user turn (nonempty user text): the loop over the planner's
todo list produced by `addMessage`, then the final verification block. -/
def runTurn (oracle : TurnOracle) (suggesterEnabled : Bool)
    (initialTodo : List TodoItem) (initialShapes : List Shape) : RunState :=
  finalBlock oracle
    (runLoop oracle suggesterEnabled (countTodo initialTodo)
      { todoList := initialTodo
        shapes := initialShapes
        sessionLog := []
        sent := []
        finalVerifyCalls := []
        trace := []
        callIdx := 0
        aborted := false })

/-! ### Concrete fixtures used by witnesses and counterexamples -/

/-- A sample task. -/
def taskA : TodoItem := ⟨"1", "draw a box", TaskStatus.todo⟩

/-- A second sample task. -/
def taskB : TodoItem := ⟨"2", "add an arrow", TaskStatus.todo⟩

/-- A sample shape. -/
def shapeS : Shape := ⟨"s1", 10, 20⟩

/-- An oracle whose executor calls always deliver one action and never
throw. -/
def oracleOk : TurnOracle :=
  ⟨fun _ => ⟨[AgentAction.create shapeS], false⟩, fun _ => [], fun _ => false, [], false⟩

/-- An oracle whose executor calls deliver zero actions and never
throw. -/
def oracleNoActions : TurnOracle :=
  ⟨fun _ => ⟨[], false⟩, fun _ => [], fun _ => false, [], false⟩

/-- An oracle whose executor stream throws immediately. -/
def oracleFail : TurnOracle :=
  ⟨fun _ => ⟨[], true⟩, fun _ => [], fun _ => false, [], false⟩

/-- The iteration record produced by dispatching `taskA` against
`oracleFail`. -/
def recFail : IterRecord :=
  ⟨taskA, [], true, [planningNotice taskA, ClientMsg.error], [taskA, taskB]⟩

/-- The iteration record produced by dispatching `taskA` against
`oracleNoActions` with the suggester disabled. -/
def recNoActions : IterRecord :=
  ⟨taskA, [], false, [planningNotice taskA, noActionsNotice taskA],
    updateTaskStatus [taskA] "1" TaskStatus.done⟩

/-- The decode sequence of a two-action stream: one decode while the
first action is still growing, then the full array. -/
def dsTwo : List (List Nat) := [[10], [10, 20]]

/-- A decode sequence in which the single action is decoded twice before
the stream ends (telemetry of one added trailing character that changes
no array entry). -/
def dsRepeat : List (List Nat) := [[5], [5]]

/-- An oracle whose Executor calls deliver one action and return
normally, but whose per-task Verifier calls throw. -/
def oracleVerifierThrows : TurnOracle :=
  ⟨fun _ => ⟨[AgentAction.create shapeS], false⟩, fun _ => [],
    fun _ => true, [], false⟩

/-- A valid JSON document whose `actions` array holds two actions, the
first containing an escaped quote: `\x7b"actions": [\x7b"t":"a\\""\x7d,\x7b"t":"b"\x7d]\x7d`. -/
def escInput : String := "\x7b\"actions\": [\x7b\"t\":\"a\\\"\"\x7d,\x7b\"t\":\"b\"\x7d]\x7d"

/-- The first action of `escInput` as the array actually contains it
(its `t` field is the two-character string `a"`). -/
def escActA : Json := Json.jobj [("t", Json.jstr "a\"")]

/-- The second action of `escInput`. -/
def escActB : Json := Json.jobj [("t", Json.jstr "b")]

/-- The truncated first action (the `t` field cut to `a`): the stale
decode the run finalizes instead of either real action. -/
def escTrunc : Json := Json.jobj [("t", Json.jstr "a")]

/-! ## Theorems -/

/-- C10: `updateTaskStatus(id, status)` changes only the status field of
the tasks whose id matches, keeps every id, text, the order and the
length of the list, and leaves the list exactly as it was when no task
has the given id. -/
theorem updateTaskStatus_frame (todoList : List TodoItem) (id : String)
    (status : TaskStatus) :
    (updateTaskStatus todoList id status).length = todoList.length
    ∧ (∀ i, ((updateTaskStatus todoList id status).get? i).map TodoItem.id
        = (todoList.get? i).map TodoItem.id)
    ∧ (∀ i, ((updateTaskStatus todoList id status).get? i).map TodoItem.text
        = (todoList.get? i).map TodoItem.text)
    ∧ (∀ i, ((updateTaskStatus todoList id status).get? i).map TodoItem.status
        = (todoList.get? i).map (fun item =>
            if item.id = id then status else item.status))
    ∧ ((∀ item ∈ todoList, item.id ≠ id) →
        updateTaskStatus todoList id status = todoList) := by
  refine ⟨by simp [updateTaskStatus], ?_, ?_, ?_, ?_⟩
  · intro i
    simp only [updateTaskStatus, List.get?_map]
    cases todoList.get? i with
    | none => rfl
    | some item => by_cases h : item.id = id <;> simp [h]
  · intro i
    simp only [updateTaskStatus, List.get?_map]
    cases todoList.get? i with
    | none => rfl
    | some item => by_cases h : item.id = id <;> simp [h]
  · intro i
    simp only [updateTaskStatus, List.get?_map]
    cases todoList.get? i with
    | none => rfl
    | some item => by_cases h : item.id = id <;> simp [h]
  · intro h
    induction todoList with
    | nil => rfl
    | cons x xs ih =>
      have hx : x.id ≠ id := h x (by simp)
      simp only [updateTaskStatus, List.map_cons, if_neg hx] at *
      have := ih (fun item hm => h item (by simp [hm]))
      simp only [updateTaskStatus] at this
      simp [this]

/-- C10 witness: at a list whose only item has a different id, the update
is the identity. -/
theorem updateTaskStatus_frame_witness :
    updateTaskStatus [taskA] "2" TaskStatus.done = [taskA] :=
  (updateTaskStatus_frame [taskA] "2" TaskStatus.done).2.2.2.2 (by decide)

/-- C9 counterexample: storing one task with status done, a later Planner
response carrying a `todoList` field deletes it (empty response list) or
reverts it to todo, contradicting "never deleted, statuses only move
forward". -/
theorem generatePlan_deletes_and_reverts :
    (∀ item ∈ generatePlanUpdate [⟨"1", "draw a box", TaskStatus.done⟩] (some []),
      False)
    ∧ (generatePlanUpdate [⟨"1", "draw a box", TaskStatus.done⟩]
        (some [⟨"1", "draw a box", TaskStatus.todo⟩])).map TodoItem.status
      = [TaskStatus.todo] := by
  constructor
  · intro item h
    simp [generatePlanUpdate] at h
  · rfl

/-- C9 (amended): the controller's own mutator `updateTaskStatus` never
deletes a task (ids, texts and order are all preserved), but a Planner
response is applied wholesale: a reply lacking the `todoList` field
leaves the stored list unchanged, and a reply carrying the field replaces
the stored list with the reply's list, which may drop items or revert
statuses. -/
theorem taskList_mutation_spec (todoList : List TodoItem) (id : String)
    (status : TaskStatus) (resp : List TodoItem) :
    (updateTaskStatus todoList id status).map (fun i => (i.id, i.text))
      = todoList.map (fun i => (i.id, i.text))
    ∧ generatePlanUpdate todoList none = todoList
    ∧ generatePlanUpdate todoList (some resp) = resp := by
  refine ⟨?_, rfl, rfl⟩
  simp only [updateTaskStatus, List.map_map]
  apply List.map_congr_left
  intro item _
  by_cases h : item.id = id <;> simp [h]

/-- C7 counterexample: on generation-side close with the client socket
still open, the bridge's close listener emits a close of the
client-facing connection, contradicting "leaves the client connection
open". -/
theorem onVertexClose_closes_client :
    BridgeEffect.closeClient ∈ onVertexClose WsState.wsOpen := by decide

/-- C7 (amended): the generation-side close handler cannot crash the
bridge (it is a total function that always at least logs), and it closes
the client-facing connection exactly when that connection is still open -
it does not leave the client connection open. -/
theorem onVertexClose_spec (clientState : WsState) :
    onVertexClose clientState ≠ []
    ∧ (BridgeEffect.closeClient ∈ onVertexClose clientState
        ↔ clientState = WsState.wsOpen) := by
  cases clientState <;> simp [onVertexClose]

/-- The balance scan never reports an offset beyond the scanned list. -/
lemma findEndAux_lt {l : List Char} {balance : Int} {e : Nat}
    (h : findEndAux l balance = some e) : e < l.length := by
  induction l generalizing balance e with
  | nil => simp [findEndAux] at h
  | cons c rest ih =>
    simp only [findEndAux] at h
    split at h
    · cases h
      simp
    · match h2 : findEndAux rest (braceStep balance c) with
      | none => rw [h2] at h; simp at h
      | some e0 =>
        rw [h2] at h
        simp only [Option.map_some'] at h
        cases h
        have := ih h2
        simp
        omega

/-- Starting from a strictly positive balance, the scan can only return
to zero at a closing brace. -/
lemma findEndAux_char {l : List Char} {balance : Int} {e : Nat}
    (hb : 1 ≤ balance) (h : findEndAux l balance = some e) :
    l.get? e = some '\x7d' := by
  induction l generalizing balance e with
  | nil => simp [findEndAux] at h
  | cons c rest ih =>
    simp only [findEndAux] at h
    split at h
    next hz =>
      cases h
      by_cases hc : c = '\x7b'
      · simp [braceStep, hc] at hz; omega
      · by_cases hd : c = '\x7d'
        · simp [hd]
        · simp [braceStep, hc, hd] at hz; omega
    next hz =>
      match h2 : findEndAux rest (braceStep balance c) with
      | none => rw [h2] at h; simp at h
      | some e0 =>
        rw [h2] at h
        simp only [Option.map_some'] at h
        cases h
        have hb' : 1 ≤ braceStep balance c := by
          by_cases hc : c = '\x7b'
          · simp [braceStep, hc]; omega
          · by_cases hd : c = '\x7d'
            · simp [braceStep, hc, hd] at hz ⊢; omega
            · simp [braceStep, hc, hd] at hz ⊢; omega
        simpa using ih hb' h2

/-- `findEnd` finds a closing brace at or after the start position,
within the buffer. -/
lemma findEnd_spec {buf : List Char} {startIndex e : Nat}
    (hs : buf.get? startIndex = some '\x7b')
    (h : findEnd buf startIndex = some e) :
    e < buf.length ∧ buf.get? e = some '\x7d' := by
  simp only [findEnd] at h
  match h2 : findEndAux (buf.drop startIndex) 0 with
  | none => rw [h2] at h; simp at h
  | some e0 =>
    rw [h2] at h
    simp only [Option.map_some'] at h
    cases h
    have hlt : startIndex < buf.length := by
      by_contra hge
      push_neg at hge
      rw [List.get?_eq_none.2 hge] at hs
      cases hs
    have hdrop : buf.drop startIndex = '\x7b' :: buf.drop (startIndex + 1) := by
      have := List.get?_eq_get (l := buf) (n := startIndex) hlt
      rw [this] at hs
      have hget : buf.get ⟨startIndex, hlt⟩ = '\x7b' := by
        simpa using hs
      rw [List.drop_eq_get_cons hlt, hget]
    rw [hdrop] at h2
    have hbs : braceStep 0 '\x7b' = 1 := by simp [braceStep]
    simp only [findEndAux, hbs] at h2
    norm_num at h2
    obtain ⟨e1, h3, rfl⟩ := h2
    have hlt1 := findEndAux_lt h3
    have hchar := findEndAux_char (by omega) h3
    constructor
    · have : (buf.drop (startIndex + 1)).length = buf.length - (startIndex + 1) :=
        List.length_drop _ _
      omega
    · have := List.get?_drop buf (startIndex + 1) e1
      rw [hchar] at this
      have harith : startIndex + 1 + e1 = e1 + 1 + startIndex := by omega
      rw [← harith]
      exact this.symm

/-- The first-brace search returns a real opening brace. -/
lemma findIdx_brace {buf : List Char} {s : Nat}
    (h : buf.findIdx? (fun c => c = '\x7b') = some s) :
    s < buf.length ∧ buf.get? s = some '\x7b' := by
  rw [List.findIdx?_eq_some_iff_getElem] at h
  obtain ⟨hlt, hp, _⟩ := h
  refine ⟨hlt, ?_⟩
  rw [List.get?_eq_getElem?, List.getElem?_eq_getElem hlt]
  simpa using hp

/-- C2: for every buffer (any prefix of a streamed response, including
malformed fragments) and any parse function, one pass of the
`ExecutorAgent.streamActions` brace-scan either waits for more input,
consumes a parsed object advancing past its closing brace (buffer
strictly shrinks), or skips one offending opening brace (buffer strictly
shrinks); and the whole scan loop terminates in a state where the scan is
waiting for more input — it never loops forever on a fixed buffer and, the
embedding being total, never throws. -/
theorem scan_progress (jsparse : List Char → Option β) (buf : List Char) :
    (scanStep jsparse buf = ScanStep.wait
      ∨ (∃ a endIndex, buf.get? endIndex = some '\x7d'
          ∧ scanStep jsparse buf = ScanStep.emit a (buf.drop (endIndex + 1))
          ∧ (buf.drop (endIndex + 1)).length < buf.length)
      ∨ (∃ startIndex, buf.get? startIndex = some '\x7b'
          ∧ scanStep jsparse buf = ScanStep.skip (buf.drop (startIndex + 1))
          ∧ (buf.drop (startIndex + 1)).length < buf.length))
    ∧ scanStep jsparse (processBuffer jsparse buf).2 = ScanStep.wait := by
  have step : ∀ b : List Char,
      scanStep jsparse b = ScanStep.wait
      ∨ (∃ a endIndex, b.get? endIndex = some '\x7d'
          ∧ scanStep jsparse b = ScanStep.emit a (b.drop (endIndex + 1))
          ∧ (b.drop (endIndex + 1)).length < b.length)
      ∨ (∃ startIndex, b.get? startIndex = some '\x7b'
          ∧ scanStep jsparse b = ScanStep.skip (b.drop (startIndex + 1))
          ∧ (b.drop (startIndex + 1)).length < b.length) := by
    intro b
    match hidx : b.findIdx? (fun c => c = '\x7b') with
    | none => exact Or.inl (by simp [scanStep, hidx])
    | some s =>
      obtain ⟨hslt, hschar⟩ := findIdx_brace hidx
      match hend : findEnd b s with
      | none => exact Or.inl (by simp [scanStep, hidx, hend])
      | some e =>
        obtain ⟨helt, hechar⟩ := findEnd_spec hschar hend
        match hp : jsparse ((b.drop s).take (e + 1 - s)) with
        | some a =>
          refine Or.inr (Or.inl ⟨a, e, hechar, ?_, ?_⟩)
          · simp [scanStep, hidx, hend, hp]
          · rw [List.length_drop]
            omega
        | none =>
          refine Or.inr (Or.inr ⟨s, hschar, ?_, ?_⟩)
          · simp [scanStep, hidx, hend, hp]
          · rw [List.length_drop]
            omega
  refine ⟨step buf, ?_⟩
  have main : ∀ fuel b, b.length < fuel →
      scanStep jsparse (processBufferAux jsparse fuel b).2 = ScanStep.wait := by
    intro fuel
    induction fuel with
    | zero => intro b h; omega
    | succ n ih =>
      intro b hb
      rcases step b with hw | ⟨a, e, _, he, hlen⟩ | ⟨s, _, hs, hlen⟩
      · simp [processBufferAux, hw]
      · rw [processBufferAux, he]
        exact ih _ (by omega)
      · rw [processBufferAux, hs]
        exact ih _ (by omega)
  exact main (buf.length + 1) buf (by omega)

/-- C3 (code bug): on the well-formed input `\x7b"actions": ["a\\""]\x7d`,
which contains an escaped quote inside a string, plain `JSON.parse`
succeeds and its `actions` field is the one-element list `["a\\""]`, but
`closeAndParseJson` returns null: its quote tracker toggles on the
escaped quote (the code has no backslash check, although its own comment
says escaped quotes are skipped), so it appends the closers `"]\x7d` to
an already-complete input, and the parse of the extended string fails.
The round-trip claimed for all well-formed inputs therefore fails. -/
theorem closeAndParseJson_escaped_quote_bug :
    jsonParse "\x7b\"actions\": [\"a\\\"\"]\x7d"
      = some (Json.jobj [("actions", Json.jarr [Json.jstr "a\""])])
    ∧ (jsonParse "\x7b\"actions\": [\"a\\\"\"]\x7d").bind
        (fun v => v.getField "actions")
      = some (Json.jarr [Json.jstr "a\""])
    ∧ String.mk (closersFor (stackOfOpenings
        ("\x7b\"actions\": [\"a\\\"\"]\x7d").toList)) = "\"]\x7d"
    ∧ closeAndParseJson "\x7b\"actions\": [\"a\\\"\"]\x7d" = none :=
  ⟨rfl, rfl, rfl, rfl⟩

/-- Appended strings with distinct leading characters are distinct. -/
lemma append3_ne (a b s u v w : String) (c d : Char)
    (ha : a.data.head? = some c) (hb : b.data.head? = some d) (hcd : c ≠ d) :
    a ++ s ++ v ≠ b ++ u ++ w := by
  intro h
  have h2 := congrArg (fun t => t.data.head?) h
  simp only [String.data_append] at h2
  rw [List.append_assoc, List.append_assoc] at h2
  have hx : (a.data ++ (s.data ++ v.data)).head? = some c := by
    cases hd : a.data with
    | nil => rw [hd] at ha; cases ha
    | cons x xs => rw [hd] at ha; simpa using ha
  have hy : (b.data ++ (u.data ++ w.data)).head? = some d := by
    cases hd : b.data with
    | nil => rw [hd] at hb; cases hb
    | cons x xs => rw [hd] at hb; simpa using hb
  rw [hx, hy] at h2
  exact hcd (by simpa using h2)

/-- The planning notice and the zero-action notice are distinct frames. -/
lemma planningNotice_ne_noActionsNotice (t u : TodoItem) :
    planningNotice t ≠ noActionsNotice u := by
  simp only [planningNotice, noActionsNotice, ne_eq, ClientMsg.action.injEq,
    AgentAction.message.injEq]
  exact append3_ne _ _ _ _ _ _ 'P' 'T' rfl rfl (by decide)

/-- The suggester header and the zero-action notice are distinct frames. -/
lemma suggHeader_ne_noActionsNotice (n : Nat) (u : TodoItem) :
    ClientMsg.action (AgentAction.message
      ("Suggester: Found " ++ toString n ++ " improvements.Applying..."))
      ≠ noActionsNotice u := by
  simp only [noActionsNotice, ne_eq, ClientMsg.action.injEq,
    AgentAction.message.injEq]
  exact append3_ne _ _ _ _ _ _ 'S' 'T' rfl rfl (by decide)

/-- `runIteration` never records a final-verification call. -/
lemma runIteration_finalVerifyCalls (oracle : TurnOracle) (en : Bool)
    (st : RunState) (t : TodoItem) :
    (runIteration oracle en st t).finalVerifyCalls = st.finalVerifyCalls := by
  simp only [runIteration]
  split
  · rfl
  · split
    · split
      · rfl
      · rfl
    · rfl

/-- The iteration aborts exactly when the executor stream or an enabled
per-task verifier call throws. -/
lemma runIteration_aborted (oracle : TurnOracle) (en : Bool)
    (st : RunState) (t : TodoItem) :
    (runIteration oracle en st t).aborted
      = ((oracle.exec st.callIdx).failed
          || (en && oracle.suggestFails st.callIdx)) := by
  simp only [runIteration]
  split
  next h => simp [h]
  next h =>
    simp only [Bool.not_eq_true] at h
    split
    next hen =>
      split
      next hsf => simp [h, hen, hsf]
      next hsf =>
        simp only [Bool.not_eq_true] at hsf
        simp [h, hen, hsf]
    next hen =>
      simp only [Bool.not_eq_true] at hen
      simp [h, hen]

/-- The iteration leaves the todo list unchanged when the executor
throws, and otherwise marks the dispatched task done. -/
lemma runIteration_todoList (oracle : TurnOracle) (en : Bool)
    (st : RunState) (t : TodoItem) :
    (runIteration oracle en st t).todoList
      = if (oracle.exec st.callIdx).failed = true then st.todoList
        else updateTaskStatus st.todoList t.id TaskStatus.done := by
  simp only [runIteration]
  split
  next h => simp [h]
  next h =>
    simp only [Bool.not_eq_true] at h
    split
    · split
      · simp [h]
      · simp [h]
    · simp [h]

/-- An aborted state passes through the loop unchanged. -/
lemma runLoop_aborted (oracle : TurnOracle) (en : Bool) :
    ∀ fuel (st : RunState), st.aborted = true →
      runLoop oracle en fuel st = st := by
  intro fuel
  induction fuel with
  | zero => intro st _; rfl
  | succ n _ =>
    intro st h
    rw [runLoop, if_pos h]

/-- Induction principle for the task loop: any property preserved by one
iteration (dispatched from a live state at the first todo item) is
preserved by the whole loop. -/
lemma runLoop_ind (oracle : TurnOracle) (en : Bool) (P : RunState → Prop)
    (hpres : ∀ st t, st.aborted = false →
      st.todoList.find? (fun i => i.status = TaskStatus.todo) = some t →
      P st → P (runIteration oracle en st t)) :
    ∀ fuel st, P st → P (runLoop oracle en fuel st) := by
  intro fuel
  induction fuel with
  | zero => intro st h; exact h
  | succ n ih =>
    intro st h
    rw [runLoop]
    by_cases ha : st.aborted = true
    · rw [if_pos ha]; exact h
    · rw [if_neg ha]
      match hf : st.todoList.find? (fun i => i.status = TaskStatus.todo) with
      | none => simp only [hf]; exact h
      | some t =>
        simp only [hf]
        exact ih _ (hpres st t (by simpa using ha) hf h)

/-- A found todo item is a member with status todo. -/
lemma find?_todo_spec {l : List TodoItem} {t : TodoItem}
    (h : l.find? (fun i => i.status = TaskStatus.todo) = some t) :
    t ∈ l ∧ t.status = TaskStatus.todo := by
  refine ⟨List.mem_of_find?_eq_some h, ?_⟩
  have := List.find?_some h
  simpa using this

/-- Marking done never increases the number of todo items. -/
lemma countTodo_update_le (l : List TodoItem) (id : String) :
    countTodo (updateTaskStatus l id TaskStatus.done) ≤ countTodo l := by
  induction l with
  | nil => simp [updateTaskStatus, countTodo]
  | cons x xs ih =>
    simp only [updateTaskStatus, countTodo, List.map_cons, List.filter_cons] at *
    by_cases h : x.id = id
    · simp only [if_pos h]
      split
      next hc => simp at hc
      next =>
        split
        · simpa using Nat.le_succ_of_le ih
        · simpa using ih
    · simp only [if_neg h]
      split
      · simpa using Nat.succ_le_succ ih
      · simpa using ih

/-- Marking done at the id of a present todo item strictly decreases
the number of todo items. -/
lemma countTodo_update_lt (l : List TodoItem) (id : String)
    (h : ∃ y ∈ l, y.id = id ∧ y.status = TaskStatus.todo) :
    countTodo (updateTaskStatus l id TaskStatus.done) < countTodo l := by
  induction l with
  | nil => simp at h
  | cons x xs ih =>
    obtain ⟨y, hy, hyid, hyst⟩ := h
    simp only [List.mem_cons] at hy
    rcases hy with rfl | hy
    · -- the witness is the head
      simp only [updateTaskStatus, countTodo, List.map_cons, List.filter_cons,
        if_pos hyid]
      split
      next hc => simp at hc
      next =>
        rw [if_pos (by simpa using hyst)]
        have := countTodo_update_le xs id
        simp only [updateTaskStatus, countTodo] at this
        simpa using Nat.lt_succ_of_le this
    · -- the witness is in the tail
      have hlt := ih ⟨y, hy, hyid, hyst⟩
      simp only [updateTaskStatus, countTodo, List.map_cons, List.filter_cons] at hlt ⊢
      by_cases hx : x.id = id
      · simp only [if_pos hx]
        split
        next hc => simp at hc
        next =>
          split
          · simpa using Nat.lt_succ_of_lt hlt
          · simpa using hlt
      · simp only [if_neg hx]
        split
        · simpa using Nat.succ_lt_succ hlt
        · simpa using hlt

/-- With zero todo items the search finds nothing. -/
lemma find?_none_of_countTodo_zero {l : List TodoItem}
    (h : countTodo l = 0) :
    l.find? (fun i => i.status = TaskStatus.todo) = none := by
  rw [List.find?_eq_none]
  intro x hx hpx
  have hmem : x ∈ l.filter (fun i => i.status = TaskStatus.todo) :=
    List.mem_filter.2 ⟨hx, hpx⟩
  have hne : l.filter (fun i => i.status = TaskStatus.todo) ≠ [] :=
    List.ne_nil_of_mem hmem
  have := List.length_pos.2 hne
  simp only [countTodo] at h
  omega

/-- With enough fuel the loop ends aborted or with the queue drained. -/
lemma runLoop_drains (oracle : TurnOracle) (en : Bool) :
    ∀ fuel (st : RunState), countTodo st.todoList ≤ fuel →
      (runLoop oracle en fuel st).aborted = true
      ∨ (runLoop oracle en fuel st).todoList.find?
          (fun i => i.status = TaskStatus.todo) = none := by
  intro fuel
  induction fuel with
  | zero =>
    intro st h
    right
    have h0 : countTodo st.todoList = 0 := Nat.le_zero.mp h
    exact find?_none_of_countTodo_zero h0
  | succ n ih =>
    intro st h
    rw [runLoop]
    by_cases ha : st.aborted = true
    · rw [if_pos ha]; exact Or.inl ha
    · rw [if_neg ha]
      match hf : st.todoList.find? (fun i => i.status = TaskStatus.todo) with
      | none => simp only [hf]; exact Or.inr trivial
      | some t =>
        simp only [hf]
        by_cases hab : (runIteration oracle en st t).aborted = true
        · rw [runLoop_aborted _ _ _ _ hab]
          exact Or.inl hab
        · apply ih
          have hfl : (oracle.exec st.callIdx).failed = false := by
            have := runIteration_aborted oracle en st t
            rw [Bool.not_eq_true] at hab
            rw [this] at hab
            exact (Bool.or_eq_false_iff.mp hab).1
          have htd : (runIteration oracle en st t).todoList
              = updateTaskStatus st.todoList t.id TaskStatus.done := by
            rw [runIteration_todoList, if_neg (by simp [hfl])]
          rw [htd]
          obtain ⟨hmem, hst⟩ := find?_todo_spec hf
          have := countTodo_update_lt st.todoList t.id ⟨t, hmem, rfl, hst⟩
          omega

/-- On a live, drained state the final block records exactly one
verification call, with the accumulated session log and the final
snapshot, and changes neither of them. -/
lemma finalBlock_complete (oracle : TurnOracle) (st : RunState)
    (hab : st.aborted = false)
    (hfind : st.todoList.find? (fun i => i.status = TaskStatus.todo) = none) :
    (finalBlock oracle st).finalVerifyCalls
      = st.finalVerifyCalls ++ [(st.sessionLog, st.shapes)]
    ∧ (finalBlock oracle st).sessionLog = st.sessionLog
    ∧ (finalBlock oracle st).shapes = st.shapes
    ∧ (finalBlock oracle st).trace = st.trace
    ∧ (finalBlock oracle st).todoList = st.todoList := by
  simp only [finalBlock, hab, hfind]
  norm_num
  refine ⟨?_, ?_, ?_, ?_, ?_⟩ <;>
    (split
     · rfl
     · split <;> rfl)

/-- The final block never touches the trace, the todo list, the log or
the snapshot. -/
lemma finalBlock_frame (oracle : TurnOracle) (st : RunState) :
    (finalBlock oracle st).trace = st.trace
    ∧ (finalBlock oracle st).todoList = st.todoList
    ∧ (finalBlock oracle st).sessionLog = st.sessionLog
    ∧ (finalBlock oracle st).shapes = st.shapes := by
  simp only [finalBlock]
  split
  · exact ⟨rfl, rfl, rfl, rfl⟩
  · split
    · exact ⟨rfl, rfl, rfl, rfl⟩
    · split
      · exact ⟨rfl, rfl, rfl, rfl⟩
      · split
        · exact ⟨rfl, rfl, rfl, rfl⟩
        · exact ⟨rfl, rfl, rfl, rfl⟩

/-- An aborted state passes through the final block unchanged. -/
lemma finalBlock_aborted (oracle : TurnOracle) (st : RunState)
    (hab : st.aborted = true) : finalBlock oracle st = st := by
  simp only [finalBlock, hab]
  norm_num

/-- C5 (counterexample): a turn whose single task's Executor succeeds
(the task is marked done, so no todo item remains and the queue is
drained) but whose per-task Verifier call throws: the `catch` sends the
one error frame and returns, and the final whole-session verification
pass is never invoked - refuting "once no todo item remains, the final
pass is invoked exactly once" for the turn. -/
theorem verifierThrow_skips_finalVerification :
    countTodo (runTurn oracleVerifierThrows true [taskA] []).todoList = 0
    ∧ (runTurn oracleVerifierThrows true [taskA] []).todoList
        = [⟨"1", "draw a box", TaskStatus.done⟩]
    ∧ (runTurn oracleVerifierThrows true [taskA] []).finalVerifyCalls = []
    ∧ (runTurn oracleVerifierThrows true [taskA] []).aborted = true
    ∧ (runTurn oracleVerifierThrows true [taskA] []).sent
        = [planningNotice taskA,
           ClientMsg.action (AgentAction.create shapeS), ClientMsg.error] := by
  refine ⟨?_, ?_, ?_, ?_, ?_⟩ <;> rfl

/-- C5 (amended): on a user turn whose Executor and per-task Verifier
calls all return normally, once no todo item remains the controller
invokes the final whole-session verification pass exactly once - whatever
the number of tasks, zero included - passing it the entire turn's
accumulated action log and the final shapes snapshot.  (Without the
normal-return hypotheses the property fails: a Verifier throw after the
last task is marked done drains the queue yet aborts the turn before the
final pass, as the counterexample above shows.) -/
theorem finalVerification_once (oracle : TurnOracle) (en : Bool)
    (todo0 : List TodoItem) (shapes0 : List Shape)
    (hexec : ∀ k, (oracle.exec k).failed = false)
    (hsugg : ∀ k, oracle.suggestFails k = false) :
    (runTurn oracle en todo0 shapes0).finalVerifyCalls
      = [((runTurn oracle en todo0 shapes0).sessionLog,
          (runTurn oracle en todo0 shapes0).shapes)] := by
  unfold runTurn
  have hab : (runLoop oracle en (countTodo todo0)
      { todoList := todo0, shapes := shapes0, sessionLog := [], sent := [],
        finalVerifyCalls := [], trace := [], callIdx := 0,
        aborted := false }).aborted = false := by
    refine runLoop_ind oracle en (fun s => s.aborted = false) ?_ _ _ rfl
    intro st t _ _ _
    rw [runIteration_aborted, hexec, hsugg]
    simp
  have hfv : (runLoop oracle en (countTodo todo0)
      { todoList := todo0, shapes := shapes0, sessionLog := [], sent := [],
        finalVerifyCalls := [], trace := [], callIdx := 0,
        aborted := false }).finalVerifyCalls = [] := by
    refine runLoop_ind oracle en (fun s => s.finalVerifyCalls = []) ?_ _ _ rfl
    intro st t _ _ hP
    rw [runIteration_finalVerifyCalls]
    exact hP
  have hdrain := runLoop_drains oracle en (countTodo todo0)
    { todoList := todo0, shapes := shapes0, sessionLog := [], sent := [],
      finalVerifyCalls := [], trace := [], callIdx := 0,
      aborted := false } (le_refl _)
  rcases hdrain with hcontra | hfind
  · rw [hab] at hcontra; cases hcontra
  · obtain ⟨h1, h2, h3, _, _⟩ := finalBlock_complete oracle _ hab hfind
    rw [h1, h2, h3, hfv]
    rfl

/-- C5 witness: a concrete two-task turn with a well-behaved oracle,
obtained from the theorem itself. -/
theorem finalVerification_once_witness :
    (runTurn oracleOk true [taskA, taskB] []).finalVerifyCalls
      = [((runTurn oracleOk true [taskA, taskB] []).sessionLog,
          (runTurn oracleOk true [taskA, taskB] []).shapes)] :=
  finalVerification_once oracleOk true [taskA, taskB] []
    (fun _ => rfl) (fun _ => rfl)

/-- Items matching the updated id come out of `updateTaskStatus _ _ done`
with status done. -/
lemma updateTaskStatus_done_id (l : List TodoItem) (id : String) :
    ∀ item ∈ updateTaskStatus l id TaskStatus.done, item.id = id →
      item.status = TaskStatus.done := by
  intro item hm hid
  simp only [updateTaskStatus, List.mem_map] at hm
  obtain ⟨item0, _, rfl⟩ := hm
  by_cases h : item0.id = id
  · simp [h]
  · simp only [if_neg h] at hid ⊢
    exact absurd hid h

/-- `updateTaskStatus _ _ done` keeps every already-done id done. -/
lemma updateTaskStatus_keeps_done (l : List TodoItem) (id0 rid : String)
    (h : ∀ item ∈ l, item.id = rid → item.status = TaskStatus.done) :
    ∀ item ∈ updateTaskStatus l id0 TaskStatus.done, item.id = rid →
      item.status = TaskStatus.done := by
  intro item hm hid
  simp only [updateTaskStatus, List.mem_map] at hm
  obtain ⟨item0, hm0, rfl⟩ := hm
  by_cases hcase : item0.id = id0
  · simp [hcase]
  · simp only [if_neg hcase] at hid ⊢
    exact h item0 hm0 hid

/-- The executor-failure branch of one iteration, written out. -/
lemma runIteration_eq_failed (oracle : TurnOracle) (en : Bool)
    (st : RunState) (t : TodoItem)
    (h : (oracle.exec st.callIdx).failed = true) :
    runIteration oracle en st t =
      { st with
        shapes := (oracle.exec st.callIdx).delivered.foldl
          (fun sh a => applyActionToShapes a sh) st.shapes
        sessionLog := st.sessionLog ++ (oracle.exec st.callIdx).delivered
        sent := st.sent ++ ([planningNotice t]
          ++ (oracle.exec st.callIdx).delivered.map ClientMsg.action
          ++ [ClientMsg.error])
        trace := st.trace ++ [⟨t, (oracle.exec st.callIdx).delivered, true,
          [planningNotice t]
            ++ (oracle.exec st.callIdx).delivered.map ClientMsg.action
            ++ [ClientMsg.error], st.todoList⟩]
        aborted := true } := by
  simp [runIteration, h]

/-- The suggester-disabled success branch of one iteration, written
out. -/
lemma runIteration_eq_disabled (oracle : TurnOracle)
    (st : RunState) (t : TodoItem)
    (hf : (oracle.exec st.callIdx).failed = false) :
    runIteration oracle false st t =
      { todoList := updateTaskStatus st.todoList t.id TaskStatus.done
        shapes := (oracle.exec st.callIdx).delivered.foldl
          (fun sh a => applyActionToShapes a sh) st.shapes
        sessionLog := st.sessionLog ++ (oracle.exec st.callIdx).delivered
        sent := st.sent ++ ([planningNotice t]
          ++ (oracle.exec st.callIdx).delivered.map ClientMsg.action
          ++ (if (oracle.exec st.callIdx).delivered.isEmpty
              then [noActionsNotice t] else []))
        finalVerifyCalls := st.finalVerifyCalls
        trace := st.trace ++ [⟨t, (oracle.exec st.callIdx).delivered, false,
          [planningNotice t]
            ++ (oracle.exec st.callIdx).delivered.map ClientMsg.action
            ++ (if (oracle.exec st.callIdx).delivered.isEmpty
                then [noActionsNotice t] else []),
          updateTaskStatus st.todoList t.id TaskStatus.done⟩]
        callIdx := st.callIdx + 1
        aborted := false } := by
  simp [runIteration, hf]

/-- The verifier-throw branch of one iteration, written out. -/
lemma runIteration_eq_sfail (oracle : TurnOracle)
    (st : RunState) (t : TodoItem)
    (hf : (oracle.exec st.callIdx).failed = false)
    (hsf : oracle.suggestFails st.callIdx = true) :
    runIteration oracle true st t =
      { st with
        todoList := updateTaskStatus st.todoList t.id TaskStatus.done
        shapes := (oracle.exec st.callIdx).delivered.foldl
          (fun sh a => applyActionToShapes a sh) st.shapes
        sessionLog := st.sessionLog ++ (oracle.exec st.callIdx).delivered
        sent := st.sent ++ ([planningNotice t]
          ++ (oracle.exec st.callIdx).delivered.map ClientMsg.action
          ++ (if (oracle.exec st.callIdx).delivered.isEmpty
              then [noActionsNotice t] else [])
          ++ [ClientMsg.error])
        trace := st.trace ++ [⟨t, (oracle.exec st.callIdx).delivered, false,
          [planningNotice t]
            ++ (oracle.exec st.callIdx).delivered.map ClientMsg.action
            ++ (if (oracle.exec st.callIdx).delivered.isEmpty
                then [noActionsNotice t] else [])
            ++ [ClientMsg.error],
          updateTaskStatus st.todoList t.id TaskStatus.done⟩]
        aborted := true } := by
  simp [runIteration, hf, hsf]

/-- The suggester-consulted success branch of one iteration, written
out. -/
lemma runIteration_eq_sugg (oracle : TurnOracle)
    (st : RunState) (t : TodoItem)
    (hf : (oracle.exec st.callIdx).failed = false)
    (hsf : oracle.suggestFails st.callIdx = false) :
    runIteration oracle true st t =
      { todoList := updateTaskStatus st.todoList t.id TaskStatus.done
        shapes := (oracle.suggest st.callIdx).foldl
          (fun sh a => applySuggestionToShapes a sh)
          ((oracle.exec st.callIdx).delivered.foldl
            (fun sh a => applyActionToShapes a sh) st.shapes)
        sessionLog := st.sessionLog ++ (oracle.exec st.callIdx).delivered
        sent := st.sent ++ ([planningNotice t]
          ++ (oracle.exec st.callIdx).delivered.map ClientMsg.action
          ++ (if (oracle.exec st.callIdx).delivered.isEmpty
              then [noActionsNotice t] else [])
          ++ (if (oracle.suggest st.callIdx).isEmpty then []
              else [ClientMsg.action (AgentAction.message
                ("Suggester: Found "
                  ++ toString (oracle.suggest st.callIdx).length
                  ++ " improvements.Applying..."))]
                ++ (oracle.suggest st.callIdx).map ClientMsg.action))
        finalVerifyCalls := st.finalVerifyCalls
        trace := st.trace ++ [⟨t, (oracle.exec st.callIdx).delivered, false,
          [planningNotice t]
            ++ (oracle.exec st.callIdx).delivered.map ClientMsg.action
            ++ (if (oracle.exec st.callIdx).delivered.isEmpty
                then [noActionsNotice t] else [])
            ++ (if (oracle.suggest st.callIdx).isEmpty then []
                else [ClientMsg.action (AgentAction.message
                  ("Suggester: Found "
                    ++ toString (oracle.suggest st.callIdx).length
                    ++ " improvements.Applying..."))]
                  ++ (oracle.suggest st.callIdx).map ClientMsg.action),
          updateTaskStatus st.todoList t.id TaskStatus.done⟩]
        callIdx := st.callIdx + 1
        aborted := false } := by
  simp [runIteration, hf, hsf]

/-- Every iteration appends exactly one trace record, dispatching the
found task, carrying what the executor delivered and whether it failed,
and recording the post-iteration todo list. -/
lemma runIteration_trace_shape (oracle : TurnOracle) (en : Bool)
    (st : RunState) (t : TodoItem) :
    ∃ rec, (runIteration oracle en st t).trace = st.trace ++ [rec]
      ∧ rec.task = t
      ∧ rec.delivered = (oracle.exec st.callIdx).delivered
      ∧ rec.failed = (oracle.exec st.callIdx).failed
      ∧ rec.todoAfter
          = (if (oracle.exec st.callIdx).failed = true then st.todoList
             else updateTaskStatus st.todoList t.id TaskStatus.done) := by
  by_cases hf : (oracle.exec st.callIdx).failed = true
  · rw [runIteration_eq_failed oracle en st t hf]
    exact ⟨_, rfl, rfl, rfl, hf.symm, by rw [if_pos hf]⟩
  · have hf2 : (oracle.exec st.callIdx).failed = false := by simpa using hf
    cases en with
    | false =>
      rw [runIteration_eq_disabled oracle st t hf2]
      exact ⟨_, rfl, rfl, rfl, hf2.symm, by rw [if_neg hf]⟩
    | true =>
      by_cases hsf : oracle.suggestFails st.callIdx = true
      · rw [runIteration_eq_sfail oracle st t hf2 hsf]
        exact ⟨_, rfl, rfl, rfl, hf2.symm, by rw [if_neg hf]⟩
      · have hsf2 : oracle.suggestFails st.callIdx = false := by simpa using hsf
        rw [runIteration_eq_sugg oracle st t hf2 hsf2]
        exact ⟨_, rfl, rfl, rfl, hf2.symm, by rw [if_neg hf]⟩

/-- In a zero-action, non-throwing iteration the appended record carries
exactly one zero-action notice among its messages. -/
lemma runIteration_record_zero (oracle : TurnOracle) (en : Bool)
    (st : RunState) (t : TodoItem)
    (hns : noActionsNotice t ∉ (oracle.suggest st.callIdx).map ClientMsg.action)
    (hfl : (oracle.exec st.callIdx).failed = false)
    (hdel : (oracle.exec st.callIdx).delivered = []) :
    ∃ msgs, (runIteration oracle en st t).trace
        = st.trace ++ [⟨t, [], false, msgs,
            updateTaskStatus st.todoList t.id TaskStatus.done⟩]
      ∧ msgs.count (noActionsNotice t) = 1 := by
  have hpn : (planningNotice t == noActionsNotice t) = false :=
    beq_eq_false_iff_ne.mpr (planningNotice_ne_noActionsNotice t t)
  cases en with
  | false =>
    refine ⟨[planningNotice t, noActionsNotice t], ?_, ?_⟩
    · rw [runIteration_eq_disabled oracle st t hfl]
      simp [hdel]
    · simp [List.count_cons, hpn]
  | true =>
    by_cases hsf : oracle.suggestFails st.callIdx = true
    · refine ⟨[planningNotice t, noActionsNotice t, ClientMsg.error], ?_, ?_⟩
      · rw [runIteration_eq_sfail oracle st t hfl hsf]
        simp [hdel]
      · have herr : (ClientMsg.error == noActionsNotice t) = false := by
          simp [noActionsNotice]
        simp [List.count_cons, hpn, herr]
    · have hsf2 : oracle.suggestFails st.callIdx = false := by simpa using hsf
      by_cases hsu : oracle.suggest st.callIdx = []
      · refine ⟨[planningNotice t, noActionsNotice t], ?_, ?_⟩
        · rw [runIteration_eq_sugg oracle st t hfl hsf2]
          simp [hdel, hsu]
        · simp [List.count_cons, hpn]
      · refine ⟨[planningNotice t, noActionsNotice t]
          ++ ([ClientMsg.action (AgentAction.message
               ("Suggester: Found "
                 ++ toString (oracle.suggest st.callIdx).length
                 ++ " improvements.Applying..."))]
            ++ (oracle.suggest st.callIdx).map ClientMsg.action), ?_, ?_⟩
        · rw [runIteration_eq_sugg oracle st t hfl hsf2]
          simp [hdel, hsu]
        · have hh : (ClientMsg.action (AgentAction.message
              ("Suggester: Found "
                ++ toString (oracle.suggest st.callIdx).length
                ++ " improvements.Applying..."))
              == noActionsNotice t) = false :=
            beq_eq_false_iff_ne.mpr
              (suggHeader_ne_noActionsNotice
                (oracle.suggest st.callIdx).length t)
          have hz : ((oracle.suggest st.callIdx).map ClientMsg.action).count
              (noActionsNotice t) = 0 := List.count_eq_zero.mpr hns
          simp [List.count_append, List.count_cons, hpn, hh, hz]

/-- Preservation of the zero-action invariant by one live iteration. -/
lemma zeroAction_inv_step (oracle : TurnOracle) (en : Bool)
    (hns : ∀ k u, noActionsNotice u ∉ (oracle.suggest k).map ClientMsg.action)
    (st : RunState) (t : TodoItem) (hab : st.aborted = false)
    (hfind : st.todoList.find? (fun i => i.status = TaskStatus.todo) = some t)
    (h : (∀ r ∈ st.trace, r.failed = false → r.delivered = [] →
          r.msgs.count (noActionsNotice r.task) = 1
          ∧ ∀ item ∈ r.todoAfter, item.id = r.task.id →
              item.status = TaskStatus.done)
      ∧ (st.trace.map (fun r => r.task.id)).Nodup
      ∧ (∀ r ∈ st.trace, st.aborted = true ∨
          ∀ item ∈ st.todoList, item.id = r.task.id →
            item.status = TaskStatus.done)) :
    (∀ r ∈ (runIteration oracle en st t).trace,
        r.failed = false → r.delivered = [] →
        r.msgs.count (noActionsNotice r.task) = 1
        ∧ ∀ item ∈ r.todoAfter, item.id = r.task.id →
            item.status = TaskStatus.done)
    ∧ ((runIteration oracle en st t).trace.map (fun r => r.task.id)).Nodup
    ∧ (∀ r ∈ (runIteration oracle en st t).trace,
        (runIteration oracle en st t).aborted = true ∨
        ∀ item ∈ (runIteration oracle en st t).todoList,
          item.id = r.task.id → item.status = TaskStatus.done) := by
  obtain ⟨h1, h2, h3⟩ := h
  obtain ⟨tmem, tst⟩ := find?_todo_spec hfind
  obtain ⟨rec, hrtr, hrtask, hrdel, hrfail, hrafter⟩ :=
    runIteration_trace_shape oracle en st t
  have hidnew : t.id ∉ st.trace.map (fun r => r.task.id) := by
    intro hmem
    simp only [List.mem_map] at hmem
    obtain ⟨r0, hr0, hid0⟩ := hmem
    rcases h3 r0 hr0 with habs | hdone
    · rw [hab] at habs; cases habs
    · have := hdone t tmem hid0.symm
      rw [tst] at this
      cases this
  refine ⟨?_, ?_, ?_⟩
  · intro r hr hrf hrd
    rw [hrtr] at hr
    rcases List.mem_append.mp hr with hold | hnew
    · exact h1 r hold hrf hrd
    · have hr_eq : r = rec := by simpa using hnew
      subst hr_eq
      have hfl : (oracle.exec st.callIdx).failed = false := by
        rw [← hrfail]; exact hrf
      have hdel : (oracle.exec st.callIdx).delivered = [] := by
        rw [← hrdel]; exact hrd
      obtain ⟨msgs, htr2, hcount⟩ :=
        runIteration_record_zero oracle en st t (hns st.callIdx t) hfl hdel
      rw [hrtr] at htr2
      have hrec2 : r = ⟨t, [], false, msgs,
          updateTaskStatus st.todoList t.id TaskStatus.done⟩ := by
        have := List.append_cancel_left htr2
        simpa using this
      rw [hrec2]
      refine ⟨hcount, ?_⟩
      exact updateTaskStatus_done_id st.todoList t.id
  · rw [hrtr, List.map_append]
    simp only [List.map_cons, List.map_nil]
    rw [List.nodup_append]
    refine ⟨h2, List.nodup_singleton _, ?_⟩
    intro a ha hb
    simp only [List.mem_singleton] at hb
    subst hb
    exact hidnew (hrtask ▸ ha)
  · intro r hr
    by_cases habn : (runIteration oracle en st t).aborted = true
    · exact Or.inl habn
    · right
      have hfl : (oracle.exec st.callIdx).failed = false := by
        have heq := runIteration_aborted oracle en st t
        rw [Bool.not_eq_true] at habn
        rw [heq] at habn
        exact (Bool.or_eq_false_iff.mp habn).1
      have htod : (runIteration oracle en st t).todoList
          = updateTaskStatus st.todoList t.id TaskStatus.done := by
        rw [runIteration_todoList, if_neg (by simp [hfl])]
      rw [htod]
      rw [hrtr] at hr
      rcases List.mem_append.mp hr with hold | hnew
      · rcases h3 r hold with habs | hdone
        · rw [hab] at habs; cases habs
        · exact updateTaskStatus_keeps_done st.todoList t.id r.task.id hdone
      · have hr_eq : r = rec := by simpa using hnew
        subst hr_eq
        rw [hrtask]
        exact updateTaskStatus_done_id st.todoList t.id

/-- C6: whenever a dispatched task's executor stream ends normally with
zero actions, the controller marks that task done, its iteration forwards
exactly one informational notice that no changes were made (provided the
per-task verifier reply does not itself contain that exact frame), and
the task is never dispatched again in the turn. -/
theorem zeroAction_task_done (oracle : TurnOracle) (en : Bool)
    (todo0 : List TodoItem) (shapes0 : List Shape)
    (hns : ∀ k u, noActionsNotice u ∉ (oracle.suggest k).map ClientMsg.action) :
    ∀ rec ∈ (runTurn oracle en todo0 shapes0).trace,
      rec.failed = false → rec.delivered = [] →
        rec.msgs.count (noActionsNotice rec.task) = 1
        ∧ (∀ item ∈ rec.todoAfter, item.id = rec.task.id →
            item.status = TaskStatus.done)
        ∧ ((runTurn oracle en todo0 shapes0).trace.map
            (fun r => r.task.id)).count rec.task.id = 1 := by
  have hloop := runLoop_ind oracle en
    (fun s => (∀ r ∈ s.trace, r.failed = false → r.delivered = [] →
        r.msgs.count (noActionsNotice r.task) = 1
        ∧ ∀ item ∈ r.todoAfter, item.id = r.task.id →
            item.status = TaskStatus.done)
      ∧ (s.trace.map (fun r => r.task.id)).Nodup
      ∧ (∀ r ∈ s.trace, s.aborted = true ∨
          ∀ item ∈ s.todoList, item.id = r.task.id →
            item.status = TaskStatus.done))
    (fun st t hab hfind h => zeroAction_inv_step oracle en hns st t hab hfind h)
    (countTodo todo0)
    { todoList := todo0, shapes := shapes0, sessionLog := [], sent := [],
      finalVerifyCalls := [], trace := [], callIdx := 0, aborted := false }
    (by simp)
  obtain ⟨k1, k2, _⟩ := hloop
  intro rec hrec hrf hrd
  have htr : (runTurn oracle en todo0 shapes0).trace
      = (runLoop oracle en (countTodo todo0)
          { todoList := todo0, shapes := shapes0, sessionLog := [], sent := [],
            finalVerifyCalls := [], trace := [], callIdx := 0,
            aborted := false }).trace := by
    unfold runTurn
    exact (finalBlock_frame oracle _).1
  rw [htr] at hrec ⊢
  refine ⟨(k1 rec hrec hrf hrd).1, (k1 rec hrec hrf hrd).2, ?_⟩
  have hmem : rec.task.id ∈ (runLoop oracle en (countTodo todo0)
      { todoList := todo0, shapes := shapes0, sessionLog := [], sent := [],
        finalVerifyCalls := [], trace := [], callIdx := 0,
        aborted := false }).trace.map (fun r => r.task.id) :=
    List.mem_map.mpr ⟨rec, hrec, rfl⟩
  exact List.count_eq_one_of_mem k2 hmem

/-- C6 witness: a one-task turn whose executor returns zero actions,
obtained from the theorem itself at the concrete trace record. -/
theorem zeroAction_task_done_witness :
    recNoActions.msgs.count (noActionsNotice recNoActions.task) = 1
    ∧ (∀ item ∈ recNoActions.todoAfter, item.id = recNoActions.task.id →
        item.status = TaskStatus.done)
    ∧ ((runTurn oracleNoActions false [taskA] []).trace.map
        (fun r => r.task.id)).count recNoActions.task.id = 1 :=
  zeroAction_task_done oracleNoActions false [taskA] []
    (fun _ _ => by simp [oracleNoActions]) recNoActions (by decide) rfl rfl

/-- C4 counterexample: with two pending tasks and an executor stream that
throws on the first dispatch, the turn forwards exactly one error frame
but the failing task is left with status todo (not done), no second task
is dispatched, and the final verification pass never runs - the handler's
catch terminates the turn instead of proceeding to the next task. -/
theorem executorThrow_counterexample :
    (runTurn oracleFail false [taskA, taskB] []).todoList.map
      (fun i => i.status) = [TaskStatus.todo, TaskStatus.todo]
    ∧ ¬(∃ item ∈ (runTurn oracleFail false [taskA, taskB] []).todoList,
        item.status = TaskStatus.done)
    ∧ (runTurn oracleFail false [taskA, taskB] []).trace.map
        (fun r => r.task.id) = ["1"]
    ∧ (runTurn oracleFail false [taskA, taskB] []).sent.count
        ClientMsg.error = 1
    ∧ (runTurn oracleFail false [taskA, taskB] []).finalVerifyCalls = [] := by
  decide

/-- No error frame hides among forwarded action frames. -/
lemma count_error_map_action (l : List AgentAction) :
    (l.map ClientMsg.action).count ClientMsg.error = 0 := by
  rw [List.count_eq_zero]
  simp

/-- Preservation of the failure invariant by one live iteration. -/
lemma executorThrow_inv_step (oracle : TurnOracle) (en : Bool)
    (st : RunState) (t : TodoItem) (hab : st.aborted = false)
    (hfind : st.todoList.find? (fun i => i.status = TaskStatus.todo) = some t)
    (h : (st.aborted = false → (∀ r ∈ st.trace, r.failed = false)
          ∧ st.sent.count ClientMsg.error = 0)
      ∧ (∀ r ∈ st.trace, r.failed = true →
          st.aborted = true ∧ st.trace.getLast? = some r
          ∧ st.sent.count ClientMsg.error = 1
          ∧ st.todoList = r.todoAfter
          ∧ ∃ item ∈ r.todoAfter, item.id = r.task.id
              ∧ item.status = TaskStatus.todo)) :
    ((runIteration oracle en st t).aborted = false →
        (∀ r ∈ (runIteration oracle en st t).trace, r.failed = false)
        ∧ (runIteration oracle en st t).sent.count ClientMsg.error = 0)
    ∧ (∀ r ∈ (runIteration oracle en st t).trace, r.failed = true →
        (runIteration oracle en st t).aborted = true
        ∧ (runIteration oracle en st t).trace.getLast? = some r
        ∧ (runIteration oracle en st t).sent.count ClientMsg.error = 1
        ∧ (runIteration oracle en st t).todoList = r.todoAfter
        ∧ ∃ item ∈ r.todoAfter, item.id = r.task.id
            ∧ item.status = TaskStatus.todo) := by
  obtain ⟨hlive, _⟩ := h
  obtain ⟨hold, herr0⟩ := hlive hab
  obtain ⟨tmem, tst⟩ := find?_todo_spec hfind
  by_cases hf : (oracle.exec st.callIdx).failed = true
  · rw [runIteration_eq_failed oracle en st t hf]
    constructor
    · intro habs
      simp at habs
    · intro r hr hrf
      simp only [List.mem_append, List.mem_singleton] at hr
      rcases hr with hold2 | rfl
      · exact absurd hrf (by simp [hold r hold2])
      · refine ⟨rfl, ?_, ?_, rfl, ⟨t, tmem, rfl, tst⟩⟩
        · simp
        · simp [List.count_append, List.count_cons, herr0,
            count_error_map_action, planningNotice]
  · have hf2 : (oracle.exec st.callIdx).failed = false := by simpa using hf
    have hnofail : ∀ r ∈ (runIteration oracle en st t).trace,
        r.failed = false := by
      obtain ⟨rec, hrtr, _, _, hrfail, _⟩ :=
        runIteration_trace_shape oracle en st t
      intro r hr
      rw [hrtr] at hr
      simp only [List.mem_append, List.mem_singleton] at hr
      rcases hr with hold2 | rfl
      · exact hold r hold2
      · rw [hrfail, hf2]
    constructor
    · intro hablive
      refine ⟨hnofail, ?_⟩
      cases en with
      | false =>
        rw [runIteration_eq_disabled oracle st t hf2]
        have hnz : (if (oracle.exec st.callIdx).delivered = []
            then [noActionsNotice t] else []).count ClientMsg.error = 0 := by
          split <;> simp [noActionsNotice]
        simp [List.count_append, herr0, count_error_map_action, hnz,
          List.count_cons, planningNotice]
      | true =>
        by_cases hsf : oracle.suggestFails st.callIdx = true
        · rw [runIteration_eq_sfail oracle st t hf2 hsf] at hablive
          simp at hablive
        · have hsf2 : oracle.suggestFails st.callIdx = false := by
            simpa using hsf
          rw [runIteration_eq_sugg oracle st t hf2 hsf2]
          have hnz : (if (oracle.exec st.callIdx).delivered = []
              then [noActionsNotice t] else []).count ClientMsg.error = 0 := by
            split <;> simp [noActionsNotice]
          have hsz : (if (oracle.suggest st.callIdx) = [] then []
              else ClientMsg.action (AgentAction.message
                ("Suggester: Found "
                  ++ toString (oracle.suggest st.callIdx).length
                  ++ " improvements.Applying..."))
                :: (oracle.suggest st.callIdx).map
                    ClientMsg.action).count ClientMsg.error = 0 := by
            split
            · simp
            · simp [List.count_cons, count_error_map_action]
          simp [List.count_append, herr0, count_error_map_action, hnz, hsz,
            List.count_cons, planningNotice]
    · intro r hr hrf
      exact absurd hrf (by simp [hnofail r hr])

/-- C4 (amended): if the Executor stream throws mid-task, the handler's
catch sends exactly one error frame and terminates the turn: the failing
dispatch is the last, the dispatched task is still present with status
todo (it is not marked done), no further task is dispatched and the final
verification pass is never invoked. -/
theorem executorThrow_terminates_turn (oracle : TurnOracle) (en : Bool)
    (todo0 : List TodoItem) (shapes0 : List Shape) (rec : IterRecord)
    (hrec : rec ∈ (runTurn oracle en todo0 shapes0).trace)
    (hf : rec.failed = true) :
    (runTurn oracle en todo0 shapes0).aborted = true
    ∧ (runTurn oracle en todo0 shapes0).trace.getLast? = some rec
    ∧ (runTurn oracle en todo0 shapes0).sent.count ClientMsg.error = 1
    ∧ (runTurn oracle en todo0 shapes0).finalVerifyCalls = []
    ∧ (runTurn oracle en todo0 shapes0).todoList = rec.todoAfter
    ∧ ∃ item ∈ rec.todoAfter, item.id = rec.task.id
        ∧ item.status = TaskStatus.todo := by
  have hloop := runLoop_ind oracle en
    (fun s => (s.aborted = false → (∀ r ∈ s.trace, r.failed = false)
        ∧ s.sent.count ClientMsg.error = 0)
      ∧ (∀ r ∈ s.trace, r.failed = true →
          s.aborted = true ∧ s.trace.getLast? = some r
          ∧ s.sent.count ClientMsg.error = 1
          ∧ s.todoList = r.todoAfter
          ∧ ∃ item ∈ r.todoAfter, item.id = r.task.id
              ∧ item.status = TaskStatus.todo))
    (fun st t hab hfind h => executorThrow_inv_step oracle en st t hab hfind h)
    (countTodo todo0)
    { todoList := todo0, shapes := shapes0, sessionLog := [], sent := [],
      finalVerifyCalls := [], trace := [], callIdx := 0, aborted := false }
    (by simp)
  have hfvc : (runLoop oracle en (countTodo todo0)
      { todoList := todo0, shapes := shapes0, sessionLog := [], sent := [],
        finalVerifyCalls := [], trace := [], callIdx := 0,
        aborted := false }).finalVerifyCalls = [] := by
    refine runLoop_ind oracle en (fun s => s.finalVerifyCalls = []) ?_ _ _ rfl
    intro st t _ _ hP
    rw [runIteration_finalVerifyCalls]
    exact hP
  obtain ⟨_, k2⟩ := hloop
  have htr : (runTurn oracle en todo0 shapes0).trace
      = (runLoop oracle en (countTodo todo0)
          { todoList := todo0, shapes := shapes0, sessionLog := [], sent := [],
            finalVerifyCalls := [], trace := [], callIdx := 0,
            aborted := false }).trace := by
    unfold runTurn
    exact (finalBlock_frame oracle _).1
  rw [htr] at hrec
  obtain ⟨kab, klast, kerr, ktodo, kitem⟩ := k2 rec hrec hf
  have hfb : runTurn oracle en todo0 shapes0
      = runLoop oracle en (countTodo todo0)
        { todoList := todo0, shapes := shapes0, sessionLog := [], sent := [],
          finalVerifyCalls := [], trace := [], callIdx := 0,
          aborted := false } := by
    unfold runTurn
    exact finalBlock_aborted oracle _ kab
  rw [hfb]
  exact ⟨kab, klast, kerr, hfvc, ktodo, kitem⟩

/-- C4 witness for the amended theorem: the concrete failing turn,
obtained from the theorem itself at the concrete trace record. -/
theorem executorThrow_terminates_turn_witness :
    (runTurn oracleFail false [taskA, taskB] []).aborted = true
    ∧ (runTurn oracleFail false [taskA, taskB] []).trace.getLast?
        = some recFail
    ∧ (runTurn oracleFail false [taskA, taskB] []).sent.count
        ClientMsg.error = 1
    ∧ (runTurn oracleFail false [taskA, taskB] []).finalVerifyCalls = []
    ∧ (runTurn oracleFail false [taskA, taskB] []).todoList
        = recFail.todoAfter
    ∧ ∃ item ∈ recFail.todoAfter, item.id = recFail.task.id
        ∧ item.status = TaskStatus.todo :=
  executorThrow_terminates_turn oracleFail false [taskA, taskB] [] recFail
    (by decide) rfl

/-- Appending one emission extends the finalized list exactly when the
emission is final. -/
lemma finals_append (out : List (Emission α)) (e : Emission α) :
    finals (out ++ [e])
      = finals out ++ (if e.complete = true then [(e.idx, e.action)] else []) := by
  by_cases hc : e.complete = true <;>
    simp [finals, List.filter_append, hc]

/-- While the finalized list is the enumeration of a settled prefix,
every finalized emission's slot is below that prefix length. -/
lemma completes_idx_lt {out : List (Emission α)} {m : Nat} {full : List α}
    (he : finals out = (full.take m).enum) {e : Emission α}
    (hmem : e ∈ out) (hc : e.complete = true) : e.idx < m := by
  have hin : (e.idx, e.action) ∈ finals out :=
    List.mem_map.mpr ⟨e, List.mem_filter.2 ⟨hmem, by simp [hc]⟩, rfl⟩
  rw [he, List.mk_mem_enum_iff_get?] at hin
  have hlt : e.idx < (full.take m).length := by
    rcases List.get?_eq_some.mp hin with ⟨h, _⟩
    exact h
  exact lt_of_lt_of_le hlt (by simp)

/-- Enumeration of a one-element extension. -/
lemma enum_append_singleton (xs : List α) (a : α) :
    (xs ++ [a]).enum = xs.enum ++ [(xs.length, a)] := by
  rw [List.enum_eq_zip_range, List.enum_eq_zip_range]
  rw [List.length_append, List.length_singleton, List.range_succ]
  rw [List.zip_append (by simp)]
  simp

/-- Enumeration of one further settled array slot. -/
lemma enum_take_succ (full : List α) (m : Nat) (a : α)
    (h : full.get? m = some a) :
    (full.take (m + 1)).enum = (full.take m).enum ++ [(m, a)] := by
  have hm : m < full.length := by
    rcases List.get?_eq_some.mp h with ⟨hlt, _⟩
    exact hlt
  have htake : full.take (m + 1) = full.take m ++ [a] := by
    rw [List.take_succ]
    rw [← List.get?_eq_getElem?, h]
    rfl
  rw [htake, enum_append_singleton]
  rw [List.length_take, Nat.min_eq_left (Nat.le_of_lt hm)]

/-- Evaluation of one loop step when the decode has the same length as
the cursor: only a preview of the last entry is emitted. -/
lemma emitStep_eq_same (st : LoopState α) (d : List α) (hd : d ≠ [])
    (hcur : st.cursor = d.length) :
    ∃ a, d.get? (d.length - 1) = some a ∧
    emitStep st d = { st with
        maybeIncompleteAction := some a
        out := st.out ++ [⟨d.length - 1, a, false⟩] } := by
  have h1 : 1 ≤ d.length := List.length_pos.mpr hd
  obtain ⟨a, ha⟩ : ∃ a, d.get? (d.length - 1) = some a := by
    refine ⟨d.get ⟨d.length - 1, by omega⟩, List.get?_eq_get (by omega)⟩
  have hie : d.isEmpty = false := by simp [hd]
  have hc0 : ¬ (d.length = 0) := by omega
  refine ⟨a, ha, ?_⟩
  simp only [emitStep, hie, Bool.false_eq_true, if_false, hcur, gt_iff_lt,
    lt_self_iff_false, getPrev, hc0]
  rw [ha]

/-- Evaluation of one loop step when the decode is one entry longer than
the cursor: slot `cursor - 1` is finalized and slot `cursor` is
previewed. -/
lemma emitStep_eq_grow (st : LoopState α) (d : List α)
    (hc1 : 1 ≤ st.cursor) (hgrow : d.length = st.cursor + 1) :
    ∃ a b, d.get? (st.cursor - 1) = some a ∧ d.get? st.cursor = some b ∧
    emitStep st d = (⟨st.cursor + 1, some b,
        st.out ++ [⟨st.cursor - 1, a, true⟩, ⟨st.cursor, b, false⟩]⟩ :
          LoopState α) := by
  obtain ⟨a, ha⟩ : ∃ a, d.get? (st.cursor - 1) = some a := by
    refine ⟨d.get ⟨st.cursor - 1, by omega⟩, List.get?_eq_get (by omega)⟩
  obtain ⟨b, hb⟩ : ∃ b, d.get? st.cursor = some b := by
    refine ⟨d.get ⟨st.cursor, by omega⟩, List.get?_eq_get (by omega)⟩
  have hie : d.isEmpty = false := by
    rw [List.isEmpty_eq_false]
    intro hnil
    rw [hnil] at hgrow
    simp at hgrow
  have hgt : st.cursor < d.length := by omega
  have hc0 : ¬ (st.cursor = 0) := by omega
  have hc0' : ¬ (st.cursor + 1 = 0) := by omega
  refine ⟨a, b, ha, hb, ?_⟩
  simp only [emitStep, hie, Bool.false_eq_true, if_false, gt_iff_lt,
    if_pos hgt, getPrev, hc0, hc0']
  rw [ha]
  simp only []
  rw [if_neg hc0', Nat.add_sub_cancel, hb]
  simp

/-- Evaluation of the first productive loop step (cursor still 0, one
decoded entry): the cursor advances without a finalization (JS reads
index -1) and the single entry is previewed. -/
lemma emitStep_eq_first (d : List α) (hlen : d.length = 1) :
    ∃ a, d.get? 0 = some a ∧
    emitStep (⟨0, none, []⟩ : LoopState α) d = ⟨1, some a, [⟨0, a, false⟩]⟩ := by
  obtain ⟨a, ha⟩ : ∃ a, d.get? 0 = some a := by
    refine ⟨d.get ⟨0, by omega⟩, List.get?_eq_get (by omega)⟩
  have hie : d.isEmpty = false := by
    rw [List.isEmpty_eq_false]
    intro hnil
    rw [hnil] at hlen
    simp at hlen
  have hgt : (0 : Nat) < d.length := by omega
  have ha2 := ha
  rw [List.get?_eq_getElem?] at ha2
  refine ⟨a, ha, ?_⟩
  simp [emitStep, getPrev, hie, hgt, ha, ha2, hlen]

/-- One loop step preserves the decode invariant: cursor tracks the
decode length, the pending action is the decode's last entry, the
finalized emissions enumerate the settled prefix, and no emission reuses
the slot of an earlier finalization. -/
lemma emitStep_inv (full d d' : List α) (st : LoopState α)
    (hd : d ≠ []) (hd' : d' ≠ [])
    (hle : d.length ≤ d'.length) (hstep : d'.length ≤ d.length + 1)
    (hstab : d'.take (d'.length - 1) = full.take (d'.length - 1))
    (hcur : st.cursor = d.length)
    (hmi : st.maybeIncompleteAction = d.get? (d.length - 1))
    (hfin : finals st.out = (full.take (d.length - 1)).enum)
    (hpw : List.Pairwise (fun e f => e.complete = true → e.idx ≠ f.idx) st.out) :
    (emitStep st d').cursor = d'.length
    ∧ (emitStep st d').maybeIncompleteAction = d'.get? (d'.length - 1)
    ∧ finals (emitStep st d').out = (full.take (d'.length - 1)).enum
    ∧ List.Pairwise (fun e f => e.complete = true → e.idx ≠ f.idx)
        (emitStep st d').out := by
  have hL : 1 ≤ d.length := List.length_pos.mpr hd
  rcases Nat.eq_or_lt_of_le hle with heq | hlt
  · obtain ⟨a, ha, hstepeq⟩ := emitStep_eq_same st d' hd' (by omega)
    rw [hstepeq]
    refine ⟨by simp [hcur, heq], ha.symm, ?_, ?_⟩
    · rw [finals_append]
      simp only [Bool.false_eq_true, if_false, List.append_nil]
      rw [hfin, heq]
    · rw [List.pairwise_append]
      refine ⟨hpw, by simp, ?_⟩
      intro x hx y hy
      simp only [List.mem_singleton] at hy
      subst hy
      intro hc
      have := completes_idx_lt hfin hx hc
      simp only
      omega
  · have hgrow : d'.length = d.length + 1 := by omega
    obtain ⟨a, b, ha, hb, hstepeq⟩ := emitStep_eq_grow st d' (by omega) (by omega)
    have hfa : full.get? (d.length - 1) = some a := by
      have h1 : d.length - 1 < d'.length - 1 := by omega
      have e1 : (full.take (d'.length - 1)).get? (d.length - 1)
          = full.get? (d.length - 1) := List.get?_take h1
      have e2 : (d'.take (d'.length - 1)).get? (d.length - 1)
          = d'.get? (d.length - 1) := List.get?_take h1
      rw [← e1, ← hstab, e2, ← hcur]
      exact ha
    rw [hstepeq]
    have hsplit : st.out ++ [(⟨st.cursor - 1, a, true⟩ : Emission α),
        ⟨st.cursor, b, false⟩]
        = (st.out ++ [⟨st.cursor - 1, a, true⟩]) ++ [⟨st.cursor, b, false⟩] := by
      simp
    refine ⟨by simp [hcur, hgrow], ?_, ?_, ?_⟩
    · have hidx : d'.length - 1 = st.cursor := by omega
      rw [hidx]
      exact hb.symm
    · simp only [hsplit]
      rw [finals_append, finals_append]
      simp only [if_pos rfl, Bool.false_eq_true, if_false, List.append_nil]
      rw [hfin]
      have hstep2 : (full.take (d.length - 1 + 1)).enum
          = (full.take (d.length - 1)).enum ++ [(d.length - 1, a)] :=
        enum_take_succ full (d.length - 1) a hfa
      have harr : d.length - 1 + 1 = d.length := by omega
      rw [harr] at hstep2
      rw [hcur, hgrow, Nat.add_sub_cancel]
      exact hstep2.symm
    · simp only [hsplit]
      rw [List.pairwise_append]
      refine ⟨?_, by simp, ?_⟩
      · rw [List.pairwise_append]
        refine ⟨hpw, by simp, ?_⟩
        intro x hx y hy
        simp only [List.mem_singleton] at hy
        subst hy
        intro hc
        have := completes_idx_lt hfin hx hc
        simp only
        omega
      · intro x hx y hy
        simp only [List.mem_singleton] at hy
        subst hy
        intro hc
        simp only
        rcases List.mem_append.mp hx with hx1 | hx2
        · have := completes_idx_lt hfin hx1 hc
          omega
        · simp only [List.mem_singleton] at hx2
          subst hx2
          simp only
          omega

/-- The loop invariant carried over the whole decode sequence: after
folding, the cursor equals the last decode's length, the pending action
is its last entry, the finalized emissions enumerate the settled prefix,
and no emission with the slot of an earlier finalization follows it. -/
lemma emitFold_inv (full : List α) :
    ∀ (ds : List (List α)) (d : List α) (st : LoopState α),
    d ≠ [] →
    st.cursor = d.length →
    st.maybeIncompleteAction = d.get? (d.length - 1) →
    finals st.out = (full.take (d.length - 1)).enum →
    List.Pairwise (fun e f => e.complete = true → e.idx ≠ f.idx) st.out →
    List.Chain' (fun x y => x.length ≤ y.length ∧ y.length ≤ x.length + 1)
      (d :: ds) →
    (∀ x ∈ ds, x ≠ []) →
    (∀ x ∈ ds, x.take (x.length - 1) = full.take (x.length - 1)) →
    ∃ dl, (d :: ds).getLast? = some dl
      ∧ (ds.foldl emitStep st).cursor = dl.length
      ∧ (ds.foldl emitStep st).maybeIncompleteAction = dl.get? (dl.length - 1)
      ∧ finals (ds.foldl emitStep st).out = (full.take (dl.length - 1)).enum
      ∧ List.Pairwise (fun e f => e.complete = true → e.idx ≠ f.idx)
          (ds.foldl emitStep st).out := by
  intro ds
  induction ds with
  | nil =>
    intro d st hd hcur hmi hfin hpw _ _ _
    exact ⟨d, rfl, hcur, hmi, hfin, hpw⟩
  | cons d2 rest ih =>
    intro d st hd hcur hmi hfin hpw hchain hne hstab
    have hrel := (List.chain'_cons.mp hchain).1
    have hchain2 := (List.chain'_cons.mp hchain).2
    have hd2 : d2 ≠ [] := hne d2 (by simp)
    obtain ⟨c1, c2, c3, c4⟩ := emitStep_inv full d d2 st hd hd2 hrel.1 hrel.2
      (hstab d2 (by simp)) hcur hmi hfin hpw
    obtain ⟨dl, hdl, r1, r2, r3, r4⟩ := ih d2 (emitStep st d2) hd2 c1 c2 c3 c4
      hchain2 (fun x hx => hne x (by simp [hx]))
      (fun x hx => hstab x (by simp [hx]))
    refine ⟨dl, ?_, r1, r2, r3, r4⟩
    rw [List.getLast?_cons_cons]
    exact hdl

/-- The emission run over a well-formed character-by-character decode
sequence: the finalized emissions are exactly the enumerated final
action array, and no emission reuses the slot of an earlier
finalization. -/
lemma emitRun_spec (full : List α) (ds : List (List α)) (h : StreamOK full ds) :
    finals (emitRun ds) = full.enum
    ∧ List.Pairwise (fun e f => e.complete = true → e.idx ≠ f.idx)
        (emitRun ds) := by
  obtain ⟨hfull, hds, hlast, hchain, hne, hstab⟩ := h
  match ds with
  | [] => exact absurd rfl hds
  | d1 :: rest =>
    have hd1 : d1 ≠ [] := hne d1 (by simp)
    have hlen1 : d1.length = 1 := by
      rw [decodeLens, List.map_cons] at hchain
      have h01 := (List.chain'_cons.mp hchain).1
      have : 1 ≤ d1.length := List.length_pos.mpr hd1
      omega
    have hchain2 : List.Chain'
        (fun x y => x.length ≤ y.length ∧ y.length ≤ x.length + 1)
        (d1 :: rest) := by
      rw [decodeLens, List.map_cons] at hchain
      have htail := (List.chain'_cons.mp hchain).2
      rw [← List.map_cons] at htail
      exact (List.chain'_map List.length).mp htail
    obtain ⟨a, ha, hfirst⟩ := emitStep_eq_first d1 hlen1
    have hbase_cur : (emitStep ⟨0, none, []⟩ d1).cursor = d1.length := by
      rw [hfirst, hlen1]
    have hbase_mi : (emitStep ⟨0, none, []⟩ d1).maybeIncompleteAction
        = d1.get? (d1.length - 1) := by
      rw [hfirst, hlen1]
      simpa using ha.symm
    have hbase_fin : finals (emitStep ⟨0, none, []⟩ d1).out
        = (full.take (d1.length - 1)).enum := by
      rw [hfirst, hlen1]
      simp [finals]
    have hbase_pw : List.Pairwise
        (fun e f => e.complete = true → e.idx ≠ f.idx)
        (emitStep ⟨0, none, []⟩ d1).out := by
      rw [hfirst]
      simp
    obtain ⟨dl, hdl, r1, r2, r3, r4⟩ := emitFold_inv full rest d1
      (emitStep ⟨0, none, []⟩ d1) hd1 hbase_cur hbase_mi hbase_fin hbase_pw
      hchain2 (fun x hx => hne x (by simp [hx]))
      (fun x hx => hstab x (by simp [hx]))
    have hdlfull : dl = full := by
      rw [hdl] at hlast
      exact Option.some.inj hlast
    rw [hdlfull] at r1 r2 r3
    have hN : 1 ≤ full.length := List.length_pos.mpr hfull
    obtain ⟨aN, haN⟩ : ∃ aN, full.get? (full.length - 1) = some aN := by
      refine ⟨full.get ⟨full.length - 1, by omega⟩, List.get?_eq_get (by omega)⟩
    have hrun : emitRun (d1 :: rest)
        = (rest.foldl emitStep (emitStep ⟨0, none, []⟩ d1)).out
          ++ [⟨(rest.foldl emitStep (emitStep ⟨0, none, []⟩ d1)).cursor - 1,
              aN, true⟩] := by
      rw [emitRun, List.foldl_cons, emitFinish]
      rw [r2, haN]
    rw [hrun, r1]
    constructor
    · rw [finals_append]
      simp only [if_pos rfl]
      rw [r3]
      have hstep2 : (full.take (full.length - 1 + 1)).enum
          = (full.take (full.length - 1)).enum ++ [(full.length - 1, aN)] :=
        enum_take_succ full (full.length - 1) aN haN
      have harr : full.length - 1 + 1 = full.length := by omega
      rw [harr, List.take_length] at hstep2
      exact hstep2.symm
    · rw [List.pairwise_append]
      refine ⟨r4, by simp, ?_⟩
      intro x hx y hy
      simp only [List.mem_singleton] at hy
      subst hy
      intro hc
      have := completes_idx_lt r3 hx hc
      simp only
      omega

/-- Each index below `N` occurs exactly once in `range N`. -/
lemma countP_range_eq_one :
    ∀ (N j : Nat), j < N →
      (List.range N).countP (fun x => x = j) = 1 := by
  intro N
  induction N with
  | zero => intro j hj; omega
  | succ n ih =>
    intro j hj
    rw [List.range_succ, List.countP_append]
    by_cases hcase : j < n
    · rw [ih j hcase]
      have : ([n].countP (fun x => x = j)) = 0 := by
        rw [List.countP_eq_zero]
        intro a ha
        simp only [List.mem_singleton] at ha
        subst ha
        simp
        omega
      omega
    · have hjn : j = n := by omega
      subst hjn
      have h0 : (List.range j).countP (fun x => x = j) = 0 := by
        rw [List.countP_eq_zero]
        intro a ha
        rw [List.mem_range] at ha
        simp
        omega
      rw [h0]
      simp

/-- For a well-behaved decode sequence (`StreamOK`), the finalized
(`complete:true`) emissions are exactly the array's actions, each
finalized exactly once and in array order (`finals = full.enum`),
including the last action, which is finalized by the stream-end flush;
and every `complete:false` preview of an action precedes that action's
finalization.  This is the regime the loop is designed for; the decoder
does not always deliver it on valid input, as a theorem below shows. -/
theorem stream_emission_order (full : List α) (ds : List (List α))
    (h : StreamOK full ds) :
    finals (emitRun ds) = full.enum
    ∧ ∀ p q e1 e2, (emitRun ds).get? p = some e1 →
        (emitRun ds).get? q = some e2 →
        e1.complete = false → e2.complete = true → e1.idx = e2.idx →
        p < q := by
  obtain ⟨hfin, hpw⟩ := emitRun_spec full ds h
  refine ⟨hfin, ?_⟩
  intro p q e1 e2 hp hq hc1 hc2 hidx
  rcases lt_trichotomy p q with h1 | h1 | h1
  · exact h1
  · subst h1
    rw [hp] at hq
    cases hq
    rw [hc1] at hc2
    cases hc2
  · exfalso
    obtain ⟨hplt, hpe⟩ := List.get?_eq_some.mp hp
    obtain ⟨hqlt, hqe⟩ := List.get?_eq_some.mp hq
    have hR := List.pairwise_iff_getElem.mp hpw q p hqlt hplt h1
    have hq2 : (emitRun ds)[q] = e2 :=
      (List.get_eq_getElem (emitRun ds) ⟨q, hqlt⟩).symm.trans hqe
    have hp2 : (emitRun ds)[p] = e1 :=
      (List.get_eq_getElem (emitRun ds) ⟨p, hplt⟩).symm.trans hpe
    rw [hq2, hp2] at hR
    exact (hR hc2) hidx.symm

/-- A concrete well-behaved instance: the two-action decode sequence
`dsTwo` satisfies `StreamOK`, and the theorem above gives its finalized
emissions in order. -/
theorem stream_emission_order_witness :
    finals (emitRun dsTwo) = ([10, 20] : List Nat).enum :=
  (stream_emission_order [10, 20] dsTwo
    ⟨by decide, by decide, by decide,
      by simp [dsTwo, decodeLens, List.chain'_cons],
      by decide, by decide⟩).1

set_option maxHeartbeats 1000000 in
/-- C1: refuted by the program's own decoder.  `escInput` is a valid JSON
document whose `actions` array holds the two actions `escActA` and
`escActB` (first conjunct: the plain parse), yet delivered character by
character the loop loses them: the quote tracker of `closeAndParseJson`
toggles on the escaped quote inside `escActA`, so from that character on
no decode succeeds - even the complete buffer fails to decode (second
conjunct) - and every successful decode holds a single partial action
(third conjunct).  The run therefore finalizes exactly one action, the
stale truncated `escTrunc` (fourth conjunct), which is not the array's
first action (fifth conjunct), and the second action is never emitted at
all, preview or final (sixth conjunct) - so "each of the N actions is
emitted with complete=true exactly once ... no action is lost" fails on
this valid array. -/
theorem stream_loses_action_on_escaped_quote :
    (jsonParse escInput).bind (fun v => v.getField "actions")
      = some (Json.jarr [escActA, escActB])
    ∧ closeAndParseJson escInput = none
    ∧ decodeLens (streamDecodes escInput) = [0, 1, 1, 1]
    ∧ finals (emitRun (streamDecodes escInput)) = [(0, escTrunc)]
    ∧ escTrunc ≠ escActA
    ∧ escActB ∉ (emitRun (streamDecodes escInput)).map Emission.action := by
  refine ⟨?_, ?_, ?_, ?_, ?_, ?_⟩
  · rfl
  · rfl
  · rfl
  · rfl
  · simp [escTrunc, escActA]
  · have hrun : (emitRun (streamDecodes escInput)).map Emission.action
        = [Json.jobj [], Json.jobj [("t", Json.jstr "")],
           Json.jobj [("t", Json.jstr "a")], Json.jobj [("t", Json.jstr "a")]] := rfl
    rw [hrun]
    simp [escActB]

/-- C8 counterexample: the decode sequence `dsRepeat` is a legitimate
character-by-character stream of the one-action array `[5]`, yet the run
emits two `complete:false` previews of that action before its single
finalization - refuting "at most one preview precedes the final
emission". -/
theorem preview_repeats_counterexample :
    StreamOK [5] dsRepeat
    ∧ previewCount (emitRun dsRepeat) 0 = 2
    ∧ ¬ previewCount (emitRun dsRepeat) 0 ≤ 1 :=
  ⟨⟨by decide, by decide, by decide,
      by simp [dsRepeat, decodeLens, List.chain'_cons],
      by decide, by decide⟩,
    by decide, by decide⟩

/-- C8 (amended): for a given logical action (array slot `j`), zero or
more `complete:false` emissions precede exactly one `complete:true`
emission; the bound "at most one preview" does not hold, but the single
finalization and the preview-before-final ordering do. -/
theorem preview_final_spec (full : List α) (ds : List (List α))
    (h : StreamOK full ds) (j : Nat) (hj : j < full.length) :
    (finals (emitRun ds)).countP (fun pr => pr.1 = j) = 1
    ∧ ∀ p q e1 e2, (emitRun ds).get? p = some e1 →
        (emitRun ds).get? q = some e2 →
        e1.complete = false → e2.complete = true →
        e1.idx = j → e2.idx = j → p < q := by
  obtain ⟨hfin, hpw⟩ := emitRun_spec full ds h
  constructor
  · rw [hfin]
    have h1 : (full.enum).countP (fun pr => pr.1 = j)
        = ((full.enum).map Prod.fst).countP (fun x => x = j) := by
      rw [List.countP_map]
      rfl
    rw [h1, List.enum_map_fst]
    exact countP_range_eq_one full.length j hj
  · intro p q e1 e2 hp hq hc1 hc2 hi1 hi2
    rcases lt_trichotomy p q with h1 | h1 | h1
    · exact h1
    · subst h1
      rw [hp] at hq
      cases hq
      rw [hc1] at hc2
      cases hc2
    · exfalso
      obtain ⟨hplt, hpe⟩ := List.get?_eq_some.mp hp
      obtain ⟨hqlt, hqe⟩ := List.get?_eq_some.mp hq
      have hR := List.pairwise_iff_getElem.mp hpw q p hqlt hplt h1
      have hq2 : (emitRun ds)[q] = e2 :=
        (List.get_eq_getElem (emitRun ds) ⟨q, hqlt⟩).symm.trans hqe
      have hp2 : (emitRun ds)[p] = e1 :=
        (List.get_eq_getElem (emitRun ds) ⟨p, hplt⟩).symm.trans hpe
      rw [hq2, hp2] at hR
      exact (hR hc2) (hi2.trans hi1.symm)

/-- C8 witness for the amended theorem: slot 0 of the `dsTwo` run has
exactly one finalization. -/
theorem preview_final_spec_witness :
    (finals (emitRun dsTwo)).countP (fun pr => pr.1 = 0) = 1 :=
  (preview_final_spec [10, 20] dsTwo
    ⟨by decide, by decide, by decide,
      by simp [dsTwo, decodeLens, List.chain'_cons],
      by decide, by decide⟩
    0 (by decide)).1

end Aiboard
